import Mathlib

/-!
# az-loadenv: a verification development

A shallow embedding of the core of `main.go` (the Key Vault reference resolver,
the `.env` value formatter and the atomic writer) together with the properties
proved about it.

Conventions.
* A Go `string` is an immutable byte sequence; it is embedded as a list of byte
  values (`GoString`).  Nothing below needs the bound `< 256`, so the theorems
  hold in particular for every real Go string.
* Library calls whose body is not part of the repository (`url.Parse`,
  `azsecrets.NewClient`, `GetSecret`, the `os` file operations) are taken as
  parameters that describe their outcome.
-/

namespace AzLoadenv

/-! ## Strings -/

/-- A Go string, as the sequence of its bytes. -/
abbrev GoString := List Nat

/-- The bytes of an ASCII literal (for ASCII the code point is the byte). -/
def ascii (s : String) : GoString := s.toList.map Char.toNat

/-- Go `strings.ContainsAny(s, chars)` for an all-ASCII `chars`, in which case
the library tests `s` byte by byte against the set. -/
def containsAny (s chars : GoString) : Bool :=
  s.any (fun b => decide (b ∈ chars))

/-- Go `strings.ReplaceAll(s, old, new)` where `old` is a single byte, as at all
four call sites: every occurrence, left to right, is replaced by `new`. -/
def replaceAll (s : GoString) (old : Nat) (new : GoString) : GoString :=
  match s with
  | [] => []
  | b :: rest =>
    if b = old then new ++ replaceAll rest old new else b :: replaceAll rest old new

/-- The argument of `strings.ContainsAny` in `needsQuoting`: space, tab, newline,
carriage return, double quote, single quote, `#`, backtick, `$`, backslash. -/
def quoteChars : GoString := [32, 9, 10, 13, 34, 39, 35, 96, 36, 92]

/-! ## Value formatter (`main.go` 270-292) -/

/-- Embedding of `needsQuoting`. -/
def needsQuoting (val : GoString) : Bool :=
  if val.length = 0 then false
  else if val[0]? = some 32 || val[0]? = some 9
      || val[val.length - 1]? = some 32 || val[val.length - 1]? = some 9 then true
  else containsAny val quoteChars

/-- Embedding of `formatEnvValue`: the four `ReplaceAll` passes in source order. -/
def formatEnvValue (val : GoString) : GoString :=
  if !needsQuoting val then val
  else
    let escaped := replaceAll val 92 [92, 92]
    let escaped := replaceAll escaped 34 [92, 34]
    let escaped := replaceAll escaped 10 [92, 110]
    let escaped := replaceAll escaped 13 [92, 114]
    [34] ++ escaped ++ [34]

/-- Reference escaping of one byte, following the specification's table:
backslash, double quote, newline and carriage return become two bytes, every
other byte is kept. -/
def escapeByte (b : Nat) : GoString :=
  if b = 92 then [92, 92]
  else if b = 34 then [92, 34]
  else if b = 10 then [92, 110]
  else if b = 13 then [92, 114]
  else [b]

/-- Reference escaping of a string in a single left-to-right pass. -/
def escapeOnce : GoString → GoString
  | [] => []
  | b :: rest => escapeByte b ++ escapeOnce rest

/-- The ten bytes the specification lists as forcing quotation: space, tab,
newline, carriage return, double quote, single quote, `#`, backtick, `$` and
backslash. -/
def isSpecial (b : Nat) : Bool :=
  b = 32 || b = 9 || b = 10 || b = 13 || b = 34 || b = 39 || b = 35 || b = 96
    || b = 36 || b = 92

/-- Reference definition of the formatter, following the specification's words:
a value with none of the ten special bytes is returned unchanged, any other
value is escaped in one pass and wrapped in double quotes. -/
def formatEnvValueRef (v : GoString) : GoString :=
  if v.all (fun b => !isSpecial b) then v
  else [34] ++ escapeOnce v ++ [34]

/-! ## More string library functions -/

/-- Go `strings.HasPrefix(s, pre)`. -/
def hasPrefix (s pre : GoString) : Bool := pre.isPrefixOf s

/-- Go `strings.TrimPrefix(s, pre)`: `s` without the leading `pre` when it has
it, `s` itself otherwise. -/
def trimPrefix (s pre : GoString) : GoString :=
  if hasPrefix s pre then s.drop pre.length else s

/-- Go `strings.Split(s, sep)` for a one-byte separator: the pieces between the
occurrences of `sep`; a string with `n` occurrences yields `n + 1` pieces. -/
def split : GoString → Nat → List GoString
  | [], _ => [[]]
  | b :: rest, sep =>
    if b = sep then [] :: split rest sep
    else
      match split rest sep with
      | [] => [[b]]
      | p :: ps => (b :: p) :: ps

/-- Go `strings.Join(elems, sep)`. -/
def join : List GoString → GoString → GoString
  | [], _ => []
  | [a], _ => a
  | a :: b :: rest, sep => a ++ sep ++ join (b :: rest) sep

/-- Go's `<` on strings: byte-wise lexicographic comparison, a proper leading
part of a string being smaller than the string. -/
def strLt : GoString → GoString → Bool
  | _, [] => false
  | [], _ :: _ => true
  | a :: as, b :: bs => if a < b then true else if b < a then false else strLt as bs

/-- The order `sort.Strings` sorts by: `a` may stand before `b` when `b < a` is
false. -/
def strLe (a b : GoString) : Prop := strLt b a = false

instance strLe_decidable : DecidableRel strLe := fun a b =>
  inferInstanceAs (Decidable (strLt b a = false))

/-- Go `sort.Strings`: the keys in increasing order.  The library's algorithm is
not part of the repository; on a total order the sorted arrangement of a list is
unique (`sortStrings_unique` below), so insertion sort computes the same list. -/
def sortStrings (keys : List GoString) : List GoString :=
  keys.insertionSort strLe

/-! ## Settings and the reference pattern (`main.go` 30-37) -/

/-- Embedding of `type setting struct`. -/
structure setting where
  name : GoString
  value : GoString
  secret : Bool
  errMsg : GoString
  deriving DecidableEq, Repr

/-- `kvRefPattern.FindStringSubmatch(s)`, reduced to capture group 1, for the
pattern `^@Microsoft\.KeyVault\(SecretUri=(https://.+)\)$`.  The pattern is
anchored at both ends (`$` is the end of the text) and `.` matches anything but
a newline, so a string matches exactly when it is the literal
`@Microsoft.KeyVault(SecretUri=`, then `https://`, then at least one byte and no
newline, then a final `)`; group 1 is everything between the literal and that
final `)`. -/
def kvRefSubmatch (s : GoString) : Option GoString :=
  let lit := ascii "@Microsoft.KeyVault(SecretUri="
  let rest := s.drop lit.length
  let group := rest.dropLast
  if hasPrefix s lit && rest.getLast? = some 41 && hasPrefix group (ascii "https://")
      && decide (8 < group.length) && !(group.drop 8).contains 10 then
    some group
  else
    none

/-- `kvRefPattern.MatchString(s)`. -/
def kvRefMatch (s : GoString) : Bool := (kvRefSubmatch s).isSome

/-! ## Key Vault resolution (`main.go` 194-268) -/

/-- The fields of `url.URL` that `resolveKeyVaultRef` reads. -/
structure URL where
  scheme : GoString
  host : GoString
  path : GoString
  deriving DecidableEq, Repr

/-- A `*azsecrets.Client`, identified by the handle the constructor returned. -/
abbrev Client := Nat

/-- The outcomes of the library and network calls made during resolution.  The
number passed to `newClient` and `getSecret` is the count of earlier calls of
that kind in the run, so a repeated call may have a different outcome.  An
error carries its message. -/
structure Services where
  urlParse : GoString → Except GoString URL
  newClient : Nat → GoString → Except GoString Client
  getSecret : Nat → Client → GoString → GoString → Except GoString (Option GoString)

/-- What the tasks of one `resolveSecrets` call share: the `vaultClients` map,
and (as a record of the run) the handles constructed so far, the number of
`NewClient` calls, and the `GetSecret` calls made. -/
structure ResolverState where
  clients : GoString → Option Client
  constructed : List (GoString × Client)
  newClientCalls : Nat
  fetched : List (Client × GoString × GoString)

/-- The state at the start of `resolveSecrets`: `make(map[string]*azsecrets.Client)`. -/
def ResolverState.init : ResolverState :=
  { clients := fun _ => none, constructed := [], newClientCalls := 0, fetched := [] }

/-- Map assignment `clients[k] = c`. -/
def mapSet (m : GoString → Option Client) (k : GoString) (c : Client) :
    GoString → Option Client :=
  fun k' => if k' = k then some c else m k'

/-- `fmt.Sprintf("%s://%s", u.Scheme, u.Host)`. -/
def vaultURLOf (u : URL) : GoString := u.scheme ++ ascii "://" ++ u.host

/-- The path decomposition of `resolveKeyVaultRef` (lines 248-257): the secret
name and version, or the error message. -/
def secretPathParts (path : GoString) : Except GoString (GoString × GoString) :=
  let parts := split (trimPrefix path [47]) 47
  if parts.length < 2 || parts[0]? ≠ some (ascii "secrets") then
    .error (ascii "unexpected secret URI path: " ++ path)
  else
    let secretName := parts[1]?.getD []
    let version := if parts.length ≥ 3 then parts[2]?.getD [] else []
    .ok (secretName, version)

/-- The section of `resolveKeyVaultRef` between `mu.Lock()` and `mu.Unlock()`
(lines 236-246): look the vault URL up, construct and store a client on a miss. -/
def lockedClient (sv : Services) (st : ResolverState) (vaultURL : GoString) :
    ResolverState × Except GoString Client :=
  match st.clients vaultURL with
  | some client => (st, .ok client)
  | none =>
    match sv.newClient st.newClientCalls vaultURL with
    | .error err =>
      ({ st with newClientCalls := st.newClientCalls + 1 },
        .error (ascii "creating keyvault client: " ++ err))
    | .ok client =>
      ({ st with
          clients := mapSet st.clients vaultURL client
          constructed := st.constructed ++ [(vaultURL, client)]
          newClientCalls := st.newClientCalls + 1 },
        .ok client)

/-- Embedding of `resolveKeyVaultRef`: the new shared state and the returned
value or error message. -/
def resolveKeyVaultRef (sv : Services) (st : ResolverState) (secretURI : GoString) :
    ResolverState × Except GoString GoString :=
  match sv.urlParse secretURI with
  | .error err => (st, .error (ascii "invalid secret URI: " ++ err))
  | .ok u =>
    match lockedClient sv st (vaultURLOf u) with
    | (st1, .error msg) => (st1, .error msg)
    | (st1, .ok client) =>
      match secretPathParts u.path with
      | .error msg => (st1, .error msg)
      | .ok (secretName, version) =>
        let st2 := { st1 with fetched := st1.fetched ++ [(client, secretName, version)] }
        match sv.getSecret st1.fetched.length client secretName version with
        | .error err =>
          (st2, .error (ascii "getting secret " ++ secretName ++ ascii ": " ++ err))
        | .ok none =>
          (st2, .error (ascii "secret " ++ secretName ++ ascii " has nil value"))
        | .ok (some value) => (st2, .ok value)

/-- One iteration of the loop of `resolveSecrets` for index `i`, with the body
of its goroutine: `continue` on a non-secret entry, `return nil` when the
pattern does not match, otherwise record the error message or the value. -/
def resolveTask (sv : Services) (i : Nat) (p : ResolverState × List setting) :
    ResolverState × List setting :=
  match p.2[i]? with
  | none => p
  | some e =>
    if !e.secret then p
    else
      match kvRefSubmatch e.value with
      | none => p
      | some uri =>
        match resolveKeyVaultRef sv p.1 uri with
        | (st, .error msg) => (st, p.2.set i { e with errMsg := msg })
        | (st, .ok resolved) => (st, p.2.set i { e with value := resolved })

/-- A run of `resolveSecrets` in which the tasks take effect in the order
`sched`.  The goroutines share only the client map, which they touch inside one
critical section, and each writes only its own entry, so a concurrent run is
described by the order in which its tasks pass that section; `sched` lists the
indices in that order. -/
def resolveSecretsIn (sv : Services) (sched : List Nat) (entries : List setting) :
    ResolverState × List setting :=
  sched.foldl (fun p i => resolveTask sv i p) (ResolverState.init, entries)

/-- Embedding of `resolveSecrets` with the tasks taking effect in index order. -/
def resolveSecrets (sv : Services) (entries : List setting) : List setting :=
  (resolveSecretsIn sv (List.range entries.length) entries).2

/-- A sequence of `resolveKeyVaultRef` calls sharing one client map, from the
state `st`. -/
def resolveAll (sv : Services) (st : ResolverState) (uris : List GoString) : ResolverState :=
  uris.foldl (fun s uri => (resolveKeyVaultRef sv s uri).1) st

/-- The vault URLs (authorities) that a sequence of `resolveKeyVaultRef` calls
reaches the client map with: one for each URI that `url.Parse` accepts. -/
def authorities (sv : Services) (uris : List GoString) : List GoString :=
  uris.filterMap fun uri =>
    match sv.urlParse uri with
    | .ok u => some (vaultURLOf u)
    | .error _ => none

/-! ## Predicates used in the statements about resolution -/

/-- What ties the client map to the record of constructions: a key is in the
map exactly when a handle was constructed for it, no key was constructed twice,
and the handle in the map is the one constructed. -/
def ClientsInv (s : ResolverState) : Prop :=
  (∀ k, (∃ c, s.clients k = some c) ↔ k ∈ s.constructed.map Prod.fst)
    ∧ (s.constructed.map Prod.fst).Nodup
    ∧ ∀ k c, s.clients k = some c → (k, c) ∈ s.constructed

/-- The shared state in which the task of entry `i` runs: the one left by the
tasks that take effect before it in the order `sched`. -/
def sharedStateAt (sv : Services) (sched : List Nat) (entries : List setting) (i : Nat) :
    ResolverState :=
  (resolveSecretsIn sv (sched.takeWhile (fun j => j ≠ i)) entries).1

/-- The two outcomes of a secret entry `e` that ends as `e'`, its task having
run in the shared state `st`: (a) the call `resolveKeyVaultRef` of that task
returned a value, which is now the entry's value while `errMsg` is empty, or
(b) it returned an error, whose non-empty message is now `errMsg` while the
value is still the reference; exactly one of the two holds. -/
def SecretSettled (sv : Services) (st : ResolverState) (e e' : setting) : Prop :=
  ∃ uri, kvRefSubmatch e.value = some uri ∧
    (((resolveKeyVaultRef sv st uri).2 = .ok e'.value ∧ e'.errMsg = [])
        ∨ ((resolveKeyVaultRef sv st uri).2 = .error e'.errMsg ∧ e'.errMsg ≠ []
            ∧ e'.value = e.value))
      ∧ ¬ (((resolveKeyVaultRef sv st uri).2 = .ok e'.value ∧ e'.errMsg = [])
        ∧ ((resolveKeyVaultRef sv st uri).2 = .error e'.errMsg ∧ e'.errMsg ≠ []
            ∧ e'.value = e.value))

/-- The effect of one task, run in the shared state `st`, on its own entry:
name and flag are kept; a non-secret entry, or one whose value does not match
the pattern, is unchanged; otherwise the result of `resolveKeyVaultRef` in that
state is recorded in `value` or in `errMsg`, the other field being kept. -/
def TaskOutcome (sv : Services) (st : ResolverState) (e e' : setting) : Prop :=
  e'.name = e.name ∧ e'.secret = e.secret
    ∧ (e.secret = false → e' = e)
    ∧ (kvRefSubmatch e.value = none → e' = e)
    ∧ (e.secret = true → ∀ uri, kvRefSubmatch e.value = some uri →
        ((resolveKeyVaultRef sv st uri).2 = .ok e'.value ∧ e'.errMsg = e.errMsg)
          ∨ ((resolveKeyVaultRef sv st uri).2 = .error e'.errMsg ∧ e'.value = e.value))

/-! ## Building the entries in `main` (`main.go` 156-182) -/

/-- The entry `main` builds for the key `name` of `settings.Properties`.  The
mapping is given as its key/value pairs in the order `range` visits them; a
value is a `*string`, `none` standing for `nil`. -/
def entryOf (props : List (GoString × Option GoString)) (name : GoString) : setting :=
  let value :=
    match props.lookup name with
    | some (some v) => v
    | _ => []
  { name := name, value := value, secret := kvRefMatch value, errMsg := [] }

/-- The `entries` slice after the loop of lines 163-177. -/
def mainEntries (props : List (GoString × Option GoString)) : List setting :=
  (sortStrings (props.map Prod.fst)).map (entryOf props)

/-- The counter `secrets` after that loop. -/
def secretCount (entries : List setting) : Nat :=
  (entries.filter (fun e => e.secret)).length

/-- The entries `main` hands to `atomicWriteEnv`. -/
def mainWritten (sv : Services) (sched : List Nat)
    (props : List (GoString × Option GoString)) : List setting :=
  let entries := mainEntries props
  if secretCount entries > 0 then (resolveSecretsIn sv sched entries).2 else entries

/-! ## Atomic writer (`main.go` 294-331) -/

/-- The loop of lines 304-311: one line per entry, appended in order. -/
def envLines (entries : List setting) (raw : Bool) : List GoString :=
  entries.foldl
    (fun lines e =>
      let val := if !raw then formatEnvValue e.value else e.value
      lines ++ [e.name ++ [61] ++ val])
    []

/-- The string `content` of line 312. -/
def envContent (entries : List setting) (raw : Bool) : GoString :=
  join (envLines entries raw) [10] ++ [10]

/-- A regular file: its bytes and permission bits. -/
structure File where
  content : GoString
  perm : Nat
  deriving DecidableEq, Repr

/-- A file-system state: the file, if any, at each path. -/
abbrev FS := GoString → Option File

/-- The outcome of each `os` call of `atomicWriteEnv`: `createTemp` is the
error or the name chosen for the temporary file; `writeString` fails with the
number of bytes that reached the file and the error; the others, among them
the deferred `os.Remove`, fail with `some` error. -/
structure OsOutcome where
  createTemp : Except GoString GoString
  writeString : Except (Nat × GoString) Unit
  close : Option GoString
  chmod : Option GoString
  rename : Option GoString
  remove : Option GoString

/-- The state with the file at `p` set to `f`. -/
def fsPut (fs : FS) (p : GoString) (f : File) : FS :=
  fun q => if q = p then some f else fs q

/-- The state with the path `p` absent. -/
def fsRemove (fs : FS) (p : GoString) : FS :=
  fun q => if q = p then none else fs q

/-- The deferred `os.Remove(tmpPath)` of line 302: when it succeeds the path is
absent afterwards, when it fails nothing changes; its error is discarded by the
code either way. -/
def osRemove (os : OsOutcome) (fs : FS) (p : GoString) : FS :=
  match os.remove with
  | none => fsRemove fs p
  | some _ => fs

/-- Go `os.Rename(old, new)` when it succeeds: `new` holds the file of `old`,
and `old` is gone unless it is the same path. -/
def fsRename (fs : FS) (old new : GoString) : FS :=
  fun q => if q = new then fs old else if q = old then none else fs q

/-- Go `os.CreateTemp`: the file is opened with `O_EXCL`, so a name that exists
is never returned (the library reports the error once its retries are used up);
on success an empty file with mode 0600 exists at the returned path. -/
def osCreateTemp (os : OsOutcome) (fs : FS) : Except GoString (FS × GoString) :=
  match os.createTemp with
  | .error err => .error err
  | .ok tmpPath =>
    if (fs tmpPath).isSome then .error (ascii "file exists")
    else .ok (fsPut fs tmpPath ⟨[], 0o600⟩, tmpPath)

/-- Embedding of `atomicWriteEnv`, step by step: the file-system states after
each `os` call it makes, in order, and the returned error (`none` for `nil`).
The deferred `os.Remove(tmpPath)` is the last call at every return after the
temporary file was created; the code discards its error. -/
def atomicWriteEnvTrace (os : OsOutcome) (fs : FS) (path : GoString)
    (entries : List setting) (raw : Bool) : List FS × Option GoString :=
  match osCreateTemp os fs with
  | .error err => ([], some (ascii "creating temp file: " ++ err))
  | .ok (fs1, tmpPath) =>
    let content := envContent entries raw
    match os.writeString with
    | .error (n, err) =>
      let fs2 := fsPut fs1 tmpPath ⟨content.take n, 0o600⟩
      ([fs1, fs2, osRemove os fs2 tmpPath], some (ascii "writing temp file: " ++ err))
    | .ok () =>
      let fs2 := fsPut fs1 tmpPath ⟨content, 0o600⟩
      match os.close with
      | some err =>
        ([fs1, fs2, osRemove os fs2 tmpPath], some (ascii "closing temp file: " ++ err))
      | none =>
        match os.chmod with
        | some err =>
          ([fs1, fs2, osRemove os fs2 tmpPath],
            some (ascii "setting file permissions: " ++ err))
        | none =>
          let fs3 := fsPut fs2 tmpPath ⟨content, 0o600⟩
          match os.rename with
          | some err =>
            ([fs1, fs2, fs3, osRemove os fs3 tmpPath],
              some (ascii "renaming temp file: " ++ err))
          | none =>
            let fs4 := fsRename fs3 tmpPath path
            ([fs1, fs2, fs3, fs4, osRemove os fs4 tmpPath], none)

/-- Embedding of `atomicWriteEnv`: the file system when it returns (the last
state of the trace, or the initial one when no call took effect) and the
returned error. -/
def atomicWriteEnv (os : OsOutcome) (fs : FS) (path : GoString) (entries : List setting)
    (raw : Bool) : FS × Option GoString :=
  let r := atomicWriteEnvTrace os fs path entries raw
  (r.1.getLast?.getD fs, r.2)

/-! ## Reading the output back -/

/-- The KEY of a `KEY=VALUE` record: the bytes before the first `=`. -/
def lineKey (line : GoString) : GoString := line.takeWhile (fun b => b ≠ 61)

/-- The line `atomicWriteEnv` renders for one entry. -/
def envLine (raw : Bool) (e : setting) : GoString :=
  e.name ++ [61] ++ (if raw then e.value else formatEnvValue e.value)

/-! ## The path shape of the specification -/

/-- The shape the specification gives for a secret path, with the name and
version it denotes: `/secrets/<name>` (no version) or `/secrets/<name>/<version>`,
the two segments being free of `/`. -/
def IsSecretPath (p name version : GoString) : Prop :=
  47 ∉ name ∧ 47 ∉ version ∧
    ((p = ascii "/secrets/" ++ name ∧ version = [])
      ∨ p = ascii "/secrets/" ++ name ++ [47] ++ version)

/-! ## Concrete collaborators for the scenarios -/

/-- A stand-in for `url.Parse` on URLs of the plain shape `scheme://host/path`;
it is used only to evaluate the scenarios of the specification. -/
def simpleUrlParse (s : GoString) : Except GoString URL :=
  let scheme := s.takeWhile (fun b => b ≠ 58)
  let afterScheme := s.drop scheme.length
  if hasPrefix afterScheme (ascii "://") then
    let r := afterScheme.drop 3
    let host := r.takeWhile (fun b => b ≠ 47)
    .ok { scheme := scheme, host := host, path := r.drop host.length }
  else
    .error (ascii "missing protocol scheme")

/-- Collaborators for the scenarios: every client construction succeeds with a
fresh handle, the secret `s1` is `topsecret`, the secret `gone` cannot be
fetched, and any other secret `n` has the value `value-of-n`. -/
def scenarioServices : Services where
  urlParse := simpleUrlParse
  newClient := fun n _ => .ok (100 + n)
  getSecret := fun _ _ name _ =>
    if name = ascii "s1" then .ok (some (ascii "topsecret"))
    else if name = ascii "gone" then .error (ascii "SecretNotFound")
    else .ok (some (ascii "value-of-" ++ name))

/-- An `OsOutcome` in which every call succeeds and the temporary file is named
`tmp`. -/
def osAllOk (tmp : GoString) : OsOutcome where
  createTemp := .ok tmp
  writeString := .ok ()
  close := none
  chmod := none
  rename := none
  remove := none

/-- An `OsOutcome` in which the temporary file `tmp` is created and written, and
then both `Chmod` and the deferred `Remove` fail. -/
def osChmodRemoveFail (tmp : GoString) : OsOutcome where
  createTemp := .ok tmp
  writeString := .ok ()
  close := none
  chmod := some (ascii "operation not permitted")
  rename := none
  remove := some (ascii "operation not permitted")

/-- The empty file system. -/
def fsEmpty : FS := fun _ => none

/-! # Theorems -/

/-! ## Formatter -/

theorem replaceAll_append (s t : GoString) (old : Nat) (new : GoString) :
    replaceAll (s ++ t) old new = replaceAll s old new ++ replaceAll t old new := by
  induction s with
  | nil => simp [replaceAll]
  | cons b rest ih =>
    by_cases h : b = old
    · simp [replaceAll, h, ih]
    · simp [replaceAll, h, ih]

theorem replaceAll_cons (b : Nat) (s : GoString) (old : Nat) (new : GoString) :
    replaceAll (b :: s) old new
      = (if b = old then new else [b]) ++ replaceAll s old new := by
  by_cases h : b = old <;> simp [replaceAll, h]

/-- The four sequential passes compute the single-pass escaping: no pass
touches a byte that an earlier pass inserted. -/
theorem four_passes_eq_escapeOnce (v : GoString) :
    replaceAll (replaceAll (replaceAll (replaceAll v 92 [92, 92]) 34 [92, 34])
      10 [92, 110]) 13 [92, 114] = escapeOnce v := by
  induction v with
  | nil => simp [replaceAll, escapeOnce]
  | cons b rest ih =>
    rw [replaceAll_cons b rest 92]
    simp only [replaceAll_append, ih, escapeOnce, escapeByte]
    by_cases h1 : b = 92
    · subst h1; simp [replaceAll]
    · by_cases h2 : b = 34
      · subst h2; simp [replaceAll]
      · by_cases h3 : b = 10
        · subst h3; simp [replaceAll]
        · by_cases h4 : b = 13
          · subst h4; simp [replaceAll]
          · simp [replaceAll, h1, h2, h3, h4]

theorem mem_of_getElem?_eq_some {s : GoString} {i b : Nat} (h : s[i]? = some b) :
    b ∈ s := by
  rw [List.getElem?_eq_some] at h
  obtain ⟨hi, rfl⟩ := h
  exact List.getElem_mem hi

theorem isSpecial_iff_mem (b : Nat) : isSpecial b = true ↔ b ∈ quoteChars := by
  simp only [isSpecial, quoteChars, Bool.or_eq_true, decide_eq_true_eq, List.mem_cons,
    List.mem_singleton, List.not_mem_nil, or_false]
  omega

/-- The two early tests of `needsQuoting` are subsumed by its `ContainsAny` test. -/
theorem needsQuoting_eq_containsAny (v : GoString) :
    needsQuoting v = containsAny v quoteChars := by
  unfold needsQuoting
  by_cases h0 : v.length = 0
  · have : v = [] := List.length_eq_zero.mp h0
    subst this; simp [containsAny]
  · simp only [h0, if_false]
    split
    · rename_i h
      have key : ∃ b, b ∈ v ∧ b ∈ quoteChars := by
        simp only [Bool.or_eq_true, decide_eq_true_eq] at h
        rcases h with ((h | h) | h) | h
        · exact ⟨32, mem_of_getElem?_eq_some h, by decide⟩
        · exact ⟨9, mem_of_getElem?_eq_some h, by decide⟩
        · exact ⟨32, mem_of_getElem?_eq_some h, by decide⟩
        · exact ⟨9, mem_of_getElem?_eq_some h, by decide⟩
      obtain ⟨b, hb, hq⟩ := key
      symm
      simp only [containsAny, List.any_eq_true, decide_eq_true_eq]
      exact ⟨b, hb, hq⟩
    · rfl

theorem all_not_special_eq (v : GoString) :
    (v.all fun b => !isSpecial b) = !containsAny v quoteChars := by
  induction v with
  | nil => rfl
  | cons b rest ih =>
    have hb : isSpecial b = decide (b ∈ quoteChars) := by
      rw [Bool.eq_iff_iff, isSpecial_iff_mem]; simp
    simp only [List.all_cons, ih, containsAny, List.any_cons, hb, Bool.not_or]

theorem formatEnvValue_eq_ref (v : GoString) : formatEnvValue v = formatEnvValueRef v := by
  unfold formatEnvValue formatEnvValueRef
  rw [needsQuoting_eq_containsAny, all_not_special_eq]
  by_cases h : containsAny v quoteChars = true
  · simp [h, four_passes_eq_escapeOnce]
  · simp [h]

theorem escapeOnce_injective : ∀ v w : GoString, escapeOnce v = escapeOnce w → v = w
  | [], [] => fun _ => rfl
  | [], b :: bs => by
    intro h
    simp only [escapeOnce, escapeByte] at h
    split_ifs at h <;> simp at h
  | a :: as, [] => by
    intro h
    simp only [escapeOnce, escapeByte] at h
    split_ifs at h <;> simp at h
  | a :: as, b :: bs => by
    intro h
    have ih := escapeOnce_injective as bs
    simp only [escapeOnce, escapeByte] at h
    split_ifs at h <;> simp at h <;> first | omega | simp_all

theorem plain_ne_quoted (v : GoString) (h : (v.all fun b => !isSpecial b) = true)
    (rest : GoString) : v ≠ 34 :: rest := by
  rintro rfl
  simp [isSpecial] at h

theorem formatEnvValueRef_injective (v w : GoString)
    (h : formatEnvValueRef v = formatEnvValueRef w) : v = w := by
  unfold formatEnvValueRef at h
  by_cases hv : (v.all fun b => !isSpecial b) = true
  · by_cases hw : (w.all fun b => !isSpecial b) = true
    · rw [if_pos hv, if_pos hw] at h
      exact h
    · rw [if_pos hv, if_neg hw] at h
      exact absurd h (plain_ne_quoted v hv _)
  · by_cases hw : (w.all fun b => !isSpecial b) = true
    · rw [if_neg hv, if_pos hw] at h
      exact absurd h.symm (plain_ne_quoted w hw _)
    · rw [if_neg hv, if_neg hw] at h
      simp only [List.cons_append, List.nil_append, List.cons.injEq, true_and] at h
      exact escapeOnce_injective v w (List.append_cancel_right h)

/-- C1: for every string, `formatEnvValue` agrees with the reference formatter
(unchanged when none of the ten special bytes occurs, otherwise one
left-to-right escaping pass between double quotes); `hello world` becomes
`"hello world"` and `C:\path "x"` becomes `"C:\\path \"x\""`. -/
theorem formatEnvValue_refines_reference :
    (∀ v : GoString, formatEnvValue v = formatEnvValueRef v)
      ∧ formatEnvValue (ascii "hello world") = ascii "\"hello world\""
      ∧ formatEnvValue (ascii "C:\\path \"x\"") = ascii "\"C:\\\\path \\\"x\\\"\"" :=
  ⟨formatEnvValue_eq_ref, by decide, by decide⟩

/-- C10: `formatEnvValue` is injective: two values with the same encoding are
the same value. -/
theorem formatEnvValue_injective (v w : GoString) :
    formatEnvValue v = formatEnvValue w → v = w := by
  intro h
  rw [formatEnvValue_eq_ref, formatEnvValue_eq_ref] at h
  exact formatEnvValueRef_injective v w h

/-- Witness for C10 at the value `a b`, whose encoding carries quotes. -/
theorem formatEnvValue_injective_witness :
    formatEnvValue (ascii "a b") = ascii "\"a b\"" ∧ ascii "a b" = [97, 32, 98] :=
  ⟨by decide, formatEnvValue_injective (ascii "a b") [97, 32, 98] (by decide)⟩

/-! ## Writer: the content -/

theorem join_eq_intercalate (sep : GoString) :
    ∀ l : List GoString, join l sep = List.intercalate sep l
  | [] => rfl
  | [a] => by simp [join, List.intercalate]
  | a :: b :: rest => by
    have ih := join_eq_intercalate sep (b :: rest)
    simp only [join, ih, List.intercalate, List.intersperse, List.flatten, List.append_assoc]

theorem envLines_foldl (raw : Bool) (entries : List setting) (acc : List GoString) :
    entries.foldl
        (fun lines e =>
          let val := if !raw then formatEnvValue e.value else e.value
          lines ++ [e.name ++ [61] ++ val])
        acc
      = acc ++ entries.map (envLine raw) := by
  induction entries generalizing acc with
  | nil => simp
  | cons e rest ih =>
    simp only [List.foldl_cons, List.map_cons, ih]
    cases raw <;> simp [envLine]

/-- The loop of `atomicWriteEnv` renders the entries one by one, in the order of
its argument. -/
theorem envLines_eq_map (entries : List setting) (raw : Bool) :
    envLines entries raw = entries.map (envLine raw) := by
  unfold envLines
  rw [envLines_foldl]
  simp

theorem lineKey_envLine (raw : Bool) (e : setting) (h : 61 ∉ e.name) :
    lineKey (envLine raw e) = e.name := by
  unfold lineKey envLine
  rw [List.append_assoc, List.takeWhile_append_of_pos]
  · simp
  · intro b hb
    have : b ≠ 61 := fun hb61 => h (hb61 ▸ hb)
    simpa using this

/-! ## Writer: the file system -/

theorem osCreateTemp_ok {os : OsOutcome} {fs fs1 : FS} {tmp : GoString}
    (h : osCreateTemp os fs = .ok (fs1, tmp)) :
    os.createTemp = .ok tmp ∧ fs tmp = none ∧ fs1 = fsPut fs tmp ⟨[], 0o600⟩ := by
  unfold osCreateTemp at h
  cases hc : os.createTemp with
  | error err => rw [hc] at h; simp at h
  | ok p =>
    rw [hc] at h
    by_cases hp : (fs p).isSome = true
    · simp [hp] at h
    · simp only [hp, Bool.false_eq_true, if_false, Except.ok.injEq, Prod.mk.injEq] at h
      obtain ⟨h1, h2⟩ := h
      subst h2
      refine ⟨rfl, ?_, h1.symm⟩
      simpa using hp

theorem osRemove_other (os : OsOutcome) (g : FS) (tmp q : GoString) (hq : q ≠ tmp) :
    osRemove os g tmp q = g q := by
  unfold osRemove
  cases os.remove <;> simp [fsRemove, hq]

theorem osRemove_ok (os : OsOutcome) (g : FS) (tmp : GoString) (h : os.remove = none) :
    osRemove os g tmp tmp = none := by
  simp [osRemove, h, fsRemove]

theorem osRemove_failed (os : OsOutcome) (g : FS) (tmp : GoString) (h : os.remove ≠ none) :
    osRemove os g tmp = g := by
  unfold osRemove
  cases hr : os.remove with
  | none => exact absurd hr h
  | some err => rfl

/-- The runs of `atomicWriteEnv`: `CreateTemp` fails and nothing happens; or one
of `WriteString`, `Close`, `Chmod`, `Rename` fails, every state differs from the
initial one at most at the temporary path, and the last state is the deferred
removal applied to a state `B` that holds the temporary file; or every call
succeeds and the temporary file is renamed. -/
theorem atomicWriteEnv_cases (os : OsOutcome) (fs : FS) (path : GoString)
    (entries : List setting) (raw : Bool) :
    (∃ err, osCreateTemp os fs = .error err
        ∧ atomicWriteEnvTrace os fs path entries raw
            = ([], some (ascii "creating temp file: " ++ err)))
      ∨ ∃ tmp, os.createTemp = .ok tmp ∧ fs tmp = none
          ∧ osCreateTemp os fs = .ok (fsPut fs tmp ⟨[], 0o600⟩, tmp)
          ∧ ((∃ msg states B f, (os.writeString ≠ .ok () ∨ os.close ≠ none
                  ∨ os.chmod ≠ none ∨ os.rename ≠ none)
                ∧ (∀ s ∈ states, ∀ q, q ≠ tmp → s q = fs q)
                ∧ (∀ q, q ≠ tmp → B q = fs q) ∧ B tmp = some f
                ∧ states.getLast? = some (osRemove os B tmp)
                ∧ atomicWriteEnvTrace os fs path entries raw = (states, some msg))
              ∨ (os.writeString = .ok () ∧ os.close = none ∧ os.chmod = none
                  ∧ os.rename = none
                  ∧ atomicWriteEnvTrace os fs path entries raw
                      = ([fsPut fs tmp ⟨[], 0o600⟩,
                          fsPut (fsPut fs tmp ⟨[], 0o600⟩) tmp
                            ⟨envContent entries raw, 0o600⟩,
                          fsPut (fsPut (fsPut fs tmp ⟨[], 0o600⟩) tmp
                            ⟨envContent entries raw, 0o600⟩) tmp
                            ⟨envContent entries raw, 0o600⟩,
                          fsRename
                            (fsPut (fsPut (fsPut fs tmp ⟨[], 0o600⟩) tmp
                              ⟨envContent entries raw, 0o600⟩) tmp
                              ⟨envContent entries raw, 0o600⟩) tmp path,
                          osRemove os
                            (fsRename
                              (fsPut (fsPut (fsPut fs tmp ⟨[], 0o600⟩) tmp
                                ⟨envContent entries raw, 0o600⟩) tmp
                                ⟨envContent entries raw, 0o600⟩) tmp path) tmp],
                        none))) := by
  have hkeep : ∀ (g : FS) (tmp : GoString) (f : File),
      (∀ q, q ≠ tmp → g q = fs q) → ∀ q, q ≠ tmp → fsPut g tmp f q = fs q := by
    intro g tmp f hg q hq
    simp [fsPut, hq, hg q hq]
  cases hc : osCreateTemp os fs with
  | error err =>
    left
    exact ⟨err, rfl, by simp [atomicWriteEnvTrace, hc]⟩
  | ok r =>
    obtain ⟨fs1, tmp⟩ := r
    obtain ⟨h1, h2, h3⟩ := osCreateTemp_ok hc
    subst h3
    right
    refine ⟨tmp, h1, h2, rfl, ?_⟩
    have k0 : ∀ q, q ≠ tmp → fs q = fs q := fun _ _ => rfl
    have k1 := hkeep fs tmp ⟨[], 0o600⟩ k0
    -- a failing run: the states `A`, `B`, possibly `B` again after `Chmod`, then the removal
    have hfail : ∀ (g : FS) (f : File) (mid : List FS) (msg : GoString),
        (∀ q, q ≠ tmp → g q = fs q) → (∀ s ∈ mid, s = fsPut g tmp f) →
        (os.writeString ≠ .ok () ∨ os.close ≠ none ∨ os.chmod ≠ none ∨ os.rename ≠ none) →
        atomicWriteEnvTrace os fs path entries raw
          = (fsPut fs tmp ⟨[], 0o600⟩ :: fsPut g tmp f
              :: (mid ++ [osRemove os (fsPut g tmp f) tmp]), some msg) →
        ∃ msg states B f, (os.writeString ≠ .ok () ∨ os.close ≠ none
              ∨ os.chmod ≠ none ∨ os.rename ≠ none)
            ∧ (∀ s ∈ states, ∀ q, q ≠ tmp → s q = fs q)
            ∧ (∀ q, q ≠ tmp → B q = fs q) ∧ B tmp = some f
            ∧ states.getLast? = some (osRemove os B tmp)
            ∧ atomicWriteEnvTrace os fs path entries raw = (states, some msg) := by
      intro g f mid msg hg hmid hf htr
      have hB := hkeep g tmp f hg
      refine ⟨msg, fsPut fs tmp ⟨[], 0o600⟩ :: fsPut g tmp f
          :: (mid ++ [osRemove os (fsPut g tmp f) tmp]),
        fsPut g tmp f, f, hf, ?_, hB, by simp [fsPut], ?_, htr⟩
      · intro s hs
        simp only [List.mem_cons, List.mem_append, List.mem_singleton, List.not_mem_nil,
          or_false] at hs
        rcases hs with rfl | rfl | hs | rfl
        · exact k1
        · exact hB
        · rw [hmid s hs]; exact hB
        · intro q hq
          rw [osRemove_other os _ tmp q hq]
          exact hB q hq
      · rw [← List.cons_append, ← List.cons_append, List.getLast?_append]
        simp
    cases hw : os.writeString with
    | error e =>
      left
      obtain ⟨n, err⟩ := e
      have h := hfail _ ⟨(envContent entries raw).take n, 0o600⟩ [] _ k1 (by simp)
        (Or.inl (by simp [hw])) (by simp only [atomicWriteEnvTrace, hc, hw]; rfl)
      rw [hw] at h
      exact h
    | ok u =>
      cases hcl : os.close with
      | some err =>
        left
        have h := hfail _ ⟨envContent entries raw, 0o600⟩ [] _ k1 (by simp)
          (Or.inr (Or.inl (by simp [hcl])))
          (by simp only [atomicWriteEnvTrace, hc, hw, hcl]; rfl)
        rw [hw, hcl] at h
        exact h
      | none =>
        cases hch : os.chmod with
        | some err =>
          left
          have h := hfail _ ⟨envContent entries raw, 0o600⟩ [] _ k1 (by simp)
            (Or.inr (Or.inr (Or.inl (by simp [hch]))))
            (by simp only [atomicWriteEnvTrace, hc, hw, hcl, hch]; rfl)
          rw [hw, hcl, hch] at h
          exact h
        | none =>
          have hput : ∀ (g : FS) (f : File), fsPut (fsPut g tmp f) tmp f = fsPut g tmp f := by
            intro g f
            funext q
            by_cases hq : q = tmp <;> simp [fsPut, hq]
          cases hr : os.rename with
          | some err =>
            left
            have h := hfail (fsPut fs tmp ⟨[], 0o600⟩) ⟨envContent entries raw, 0o600⟩
              [fsPut (fsPut fs tmp ⟨[], 0o600⟩) tmp ⟨envContent entries raw, 0o600⟩]
              (ascii "renaming temp file: " ++ err) k1 (by simp)
              (Or.inr (Or.inr (Or.inr (by simp [hr]))))
              (by simp only [atomicWriteEnvTrace, hc, hw, hcl, hch, hr, hput]; rfl)
            rw [hw, hcl, hch, hr] at h
            exact h
          | none =>
            right
            exact ⟨rfl, rfl, rfl, rfl,
              by simp only [atomicWriteEnvTrace, hc, hw, hcl, hch, hr]⟩

/-- C3: the content `atomicWriteEnv` writes is the entries' lines, in order,
joined by one newline and followed by one newline, a line being the name, `=`
and the formatted value (quoted mode) or the unchanged value (raw mode); after a
successful run the destination holds exactly this content; the entries `A=1`,
`B=topsecret` give `A=1\nB=topsecret\n`. -/
theorem atomicWriteEnv_content :
    (∀ (entries : List setting) (raw : Bool),
        envContent entries raw
          = List.intercalate [10] (entries.map (envLine raw)) ++ [10])
      ∧ (∀ (e : setting), envLine true e = e.name ++ [61] ++ e.value
          ∧ envLine false e = e.name ++ [61] ++ formatEnvValue e.value)
      ∧ (∀ (os : OsOutcome) (fs : FS) (path : GoString) (entries : List setting)
          (raw : Bool) (tmp : GoString),
          (atomicWriteEnv os fs path entries raw).2 = none →
          os.createTemp = .ok tmp → tmp ≠ path →
          (atomicWriteEnv os fs path entries raw).1 path
            = some ⟨List.intercalate [10] (entries.map (envLine raw)) ++ [10], 0o600⟩)
      ∧ envContent
          [⟨ascii "A", ascii "1", false, []⟩, ⟨ascii "B", ascii "topsecret", true, []⟩] false
          = ascii "A=1\nB=topsecret\n"
      ∧ (atomicWriteEnv (osAllOk (ascii ".env.tmp.1")) fsEmpty (ascii ".env")
          [⟨ascii "A", ascii "1", false, []⟩, ⟨ascii "B", ascii "topsecret", true, []⟩]
          false).1 (ascii ".env")
          = some ⟨ascii "A=1\nB=topsecret\n", 0o600⟩ := by
  have hcontent : ∀ (entries : List setting) (raw : Bool),
      envContent entries raw
        = List.intercalate [10] (entries.map (envLine raw)) ++ [10] := by
    intro entries raw
    unfold envContent
    rw [envLines_eq_map, join_eq_intercalate]
  refine ⟨hcontent, ?_, ?_, by decide, by decide⟩
  · intro e
    simp [envLine]
  · intro os fs path entries raw tmp hnil hct hne
    unfold atomicWriteEnv at hnil ⊢
    rcases atomicWriteEnv_cases os fs path entries raw with
      ⟨err, _, h⟩ | ⟨tmp', ht, _, _, ⟨msg, states, B, f, _, _, _, _, _, h⟩ | ⟨_, _, _, _, h⟩⟩
    · rw [h] at hnil; simp at hnil
    · rw [h] at hnil; simp at hnil
    · rw [hct] at ht
      cases ht
      rw [h, ← hcontent]
      have hne' : path ≠ tmp := fun h => hne h.symm
      simp only [List.getLast?_cons_cons, List.getLast?_singleton, Option.getD_some]
      rw [osRemove_other os _ tmp path hne']
      simp [fsRename, fsPut]

/-- C6 as stated fails: the temporary file `.env.tmp.1` is created and written,
`Chmod` fails, and the deferred `os.Remove`, whose error the code discards,
fails too; `atomicWriteEnv` returns the `Chmod` error and leaves the destination
absent, but the temporary file still exists. -/
theorem atomicWriteEnv_temp_left_counterexample :
    (osChmodRemoveFail (ascii ".env.tmp.1")).chmod ≠ none
      ∧ (atomicWriteEnv (osChmodRemoveFail (ascii ".env.tmp.1")) fsEmpty (ascii ".env")
          [⟨ascii "A", ascii "1", false, []⟩] false).2
          = some (ascii "setting file permissions: operation not permitted")
      ∧ (atomicWriteEnv (osChmodRemoveFail (ascii ".env.tmp.1")) fsEmpty (ascii ".env")
          [⟨ascii "A", ascii "1", false, []⟩] false).1 (ascii ".env") = none
      ∧ (atomicWriteEnv (osChmodRemoveFail (ascii ".env.tmp.1")) fsEmpty (ascii ".env")
          [⟨ascii "A", ascii "1", false, []⟩] false).1 (ascii ".env.tmp.1")
          = some ⟨ascii "A=1\n", 0o600⟩ := by
  decide

/-- C6 (amended): whichever step of `atomicWriteEnv` fails (create, write,
close, chmod, rename), the call returns an error and no path other than the
temporary one is touched, so the destination keeps its prior content or
absence; the temporary file is gone when the deferred `os.Remove` succeeds (the
file system is then exactly the prior one) and is left behind when that removal
fails after a failed write, close, chmod or rename; the destination differs
afterwards only when every step succeeded, and then it is the renamed temporary
file; in no state during the run does the destination differ from its prior
content except after the successful rename, where it already is the complete
new file; no other path is affected.  The temporary path is taken to be another
path than the destination wherever the removal may fail. -/
theorem atomicWriteEnv_failure_safe (os : OsOutcome) (fs : FS) (path : GoString)
    (entries : List setting) (raw : Bool) :
    (((∃ err, osCreateTemp os fs = .error err) ∨ os.writeString ≠ .ok ()
          ∨ os.close ≠ none ∨ os.chmod ≠ none ∨ os.rename ≠ none) →
        (atomicWriteEnv os fs path entries raw).2 ≠ none
          ∧ (∀ q, os.createTemp ≠ .ok q →
              (atomicWriteEnv os fs path entries raw).1 q = fs q)
          ∧ (os.remove = none → ∀ q, (atomicWriteEnv os fs path entries raw).1 q = fs q)
          ∧ ((os.remove = none ∨ os.createTemp ≠ .ok path) →
              (atomicWriteEnv os fs path entries raw).1 path = fs path))
      ∧ (∀ fs1 tmp, osCreateTemp os fs = .ok (fs1, tmp) → os.remove = none →
          (atomicWriteEnv os fs path entries raw).1 tmp = none)
      ∧ (∀ fs1 tmp, osCreateTemp os fs = .ok (fs1, tmp) →
          (os.writeString ≠ .ok () ∨ os.close ≠ none ∨ os.chmod ≠ none
            ∨ os.rename ≠ none) →
          os.remove ≠ none →
          ∃ f, (atomicWriteEnv os fs path entries raw).1 tmp = some f)
      ∧ ((os.remove = none ∨ os.createTemp ≠ .ok path) →
          (atomicWriteEnv os fs path entries raw).1 path ≠ fs path →
          (atomicWriteEnv os fs path entries raw).2 = none
            ∧ (∃ fs1 tmp, osCreateTemp os fs = .ok (fs1, tmp) ∧ tmp ≠ path)
            ∧ os.writeString = .ok () ∧ os.close = none ∧ os.chmod = none
            ∧ os.rename = none
            ∧ (atomicWriteEnv os fs path entries raw).1 path
                = some ⟨envContent entries raw, 0o600⟩)
      ∧ (∀ fs1 tmp, osCreateTemp os fs = .ok (fs1, tmp) → tmp ≠ path →
          ∀ s ∈ (atomicWriteEnvTrace os fs path entries raw).1, s path ≠ fs path →
            (atomicWriteEnvTrace os fs path entries raw).2 = none
              ∧ os.rename = none
              ∧ s path = some ⟨envContent entries raw, 0o600⟩)
      ∧ (∀ q, q ≠ path → os.createTemp ≠ .ok q →
          (atomicWriteEnv os fs path entries raw).1 q = fs q) := by
  unfold atomicWriteEnv
  rcases atomicWriteEnv_cases os fs path entries raw with
    ⟨err, hc, h⟩ | ⟨tmp, ht, hfresh, hc,
      ⟨msg, states, B, f, hfail, hx, hB, hBt, hlast, h⟩ | ⟨hw, hcl, hch, hr, h⟩⟩
  · rw [h]
    refine ⟨fun _ => ⟨by simp, fun _ _ => rfl, fun _ _ => rfl, fun _ => rfl⟩, ?_, ?_,
      fun _ hne => absurd rfl hne, ?_, fun _ _ _ => rfl⟩
    · intro fs1 tmp hok
      rw [hc] at hok
      cases hok
    · intro fs1 tmp hok
      rw [hc] at hok
      cases hok
    · intro fs1 tmp hok
      rw [hc] at hok
      cases hok
  · rw [h]
    have hmem : osRemove os B tmp ∈ states := List.mem_of_getLast?_eq_some hlast
    have hfin : (states.getLast?.getD fs) = osRemove os B tmp := by rw [hlast]; rfl
    have hoth : ∀ q, q ≠ tmp → osRemove os B tmp q = fs q := hx _ hmem
    have hall : os.remove = none → ∀ q, osRemove os B tmp q = fs q := by
      intro hrm q
      by_cases hq : q = tmp
      · subst hq; rw [osRemove_ok os B q hrm, hfresh]
      · exact hoth q hq
    have hdest : (os.remove = none ∨ os.createTemp ≠ .ok path) →
        osRemove os B tmp path = fs path := by
      rintro (hrm | hne)
      · exact hall hrm path
      · exact hoth path (fun hp => hne (hp ▸ ht))
    simp only [hfin]
    refine ⟨fun _ => ⟨by simp, ?_, hall, hdest⟩, ?_, ?_, fun hcond hne => absurd (hdest hcond) hne,
      ?_, ?_⟩
    · intro q hq
      exact hoth q (fun hqt => hq (hqt ▸ ht))
    · intro fs1 tmp' hok hrm
      rw [hc] at hok
      cases hok
      exact osRemove_ok os B tmp hrm
    · intro fs1 tmp' hok _ hrm
      rw [hc] at hok
      cases hok
      rw [osRemove_failed os B tmp hrm]
      exact ⟨f, hBt⟩
    · intro fs1 tmp' hok hne s hs hdiff
      rw [hc] at hok
      cases hok
      exact absurd (hx s hs path (fun h => hne h.symm)) hdiff
    · intro q _ hq
      exact hoth q (fun hqt => hq (hqt ▸ ht))
  · rw [h]
    simp only [List.getLast?_cons_cons, List.getLast?_singleton, Option.getD_some]
    have hnofail : ¬ ((∃ err, osCreateTemp os fs = .error err) ∨ os.writeString ≠ .ok ()
        ∨ os.close ≠ none ∨ os.chmod ≠ none ∨ os.rename ≠ none) := by
      rintro (⟨err, he⟩ | hne | hne | hne | hne)
      · rw [hc] at he; cases he
      · exact absurd hw hne
      · exact absurd hcl hne
      · exact absurd hch hne
      · exact absurd hr hne
    refine ⟨fun hf => absurd hf hnofail, ?_, ?_, ?_, ?_, ?_⟩
    · intro fs1 tmp' hok hrm
      rw [hc] at hok
      cases hok
      exact osRemove_ok os _ tmp hrm
    · intro fs1 tmp' hok hf
      rcases hf with hne | hne | hne | hne
      · exact absurd hw hne
      · exact absurd hcl hne
      · exact absurd hch hne
      · exact absurd hr hne
    · intro hcond hne
      have hp : tmp ≠ path := by
        rintro rfl
        rcases hcond with hrm | hct
        · apply hne
          rw [osRemove_ok os _ tmp hrm, hfresh]
        · exact hct ht
      have hp' : path ≠ tmp := fun h => hp h.symm
      refine ⟨trivial, ⟨_, tmp, hc, hp⟩, hw, hcl, hch, hr, ?_⟩
      rw [osRemove_other os _ tmp path hp']
      simp [fsRename, fsPut]
    · intro fs1 tmp' hok hne s hs hdiff
      rw [hc] at hok
      cases hok
      have hp' : path ≠ tmp := fun h => hne h.symm
      refine ⟨trivial, hr, ?_⟩
      simp only [List.mem_cons, List.mem_singleton, List.not_mem_nil, or_false] at hs
      rcases hs with rfl | rfl | rfl | rfl | rfl
      · exact absurd (by simp [fsPut, hp']) hdiff
      · exact absurd (by simp [fsPut, hp']) hdiff
      · exact absurd (by simp [fsPut, hp']) hdiff
      · simp [fsRename, fsPut]
      · rw [osRemove_other os _ tmp path hp']
        simp [fsRename, fsPut]
    · intro q hq hqt
      have hq' : q ≠ tmp := fun hqt' => hqt (hqt' ▸ ht)
      rw [osRemove_other os _ tmp q hq']
      simp [fsRename, fsPut, hq', hq]

/-! ## The order of `sort.Strings` -/

theorem strLt_irrefl : ∀ a : GoString, strLt a a = false
  | [] => rfl
  | a :: as => by simp [strLt, strLt_irrefl as]

theorem strLe_total : ∀ a b : GoString, strLe a b ∨ strLe b a
  | [], _ => Or.inl (by simp [strLe, strLt])
  | _ :: _, [] => Or.inr (by simp [strLe, strLt])
  | a :: as, b :: bs => by
    have ih := strLe_total as bs
    simp only [strLe, strLt] at ih ⊢
    by_cases h1 : a < b
    · left
      have : ¬ b < a := by omega
      simp [h1, this]
    · by_cases h2 : b < a
      · right; simp [h1, h2]
      · simpa [h1, h2] using ih

theorem strLe_trans : ∀ a b c : GoString, strLe a b → strLe b c → strLe a c
  | [], _, _ => fun _ _ => by simp [strLe, strLt]
  | _ :: _, [], _ => fun h _ => by simp [strLe, strLt] at h
  | _ :: _, _ :: _, [] => fun _ h => by simp [strLe, strLt] at h
  | a :: as, b :: bs, c :: cs => by
    intro hab hbc
    have ih := strLe_trans as bs cs
    simp only [strLe, strLt] at ih hab hbc ⊢
    by_cases h1 : b < a
    · simp [h1] at hab
    · by_cases h2 : c < b
      · simp [h2] at hbc
      · by_cases h3 : a < b
        · have h4 : ¬ c < a := by omega
          have h5 : a < c := by omega
          simp [h4, h5]
        · by_cases h6 : b < c
          · have h4 : ¬ c < a := by omega
            have h5 : a < c := by omega
            simp [h4, h5]
          · have hab' : a = b := by omega
            have hbc' : b = c := by omega
            subst hab' hbc'
            simp only [h1, if_false] at hab hbc ⊢
            exact ih hab hbc

theorem strLe_antisymm : ∀ a b : GoString, strLe a b → strLe b a → a = b
  | [], [] => fun _ _ => rfl
  | [], _ :: _ => fun _ h => by simp [strLe, strLt] at h
  | _ :: _, [] => fun h _ => by simp [strLe, strLt] at h
  | a :: as, b :: bs => by
    intro hab hba
    have ih := strLe_antisymm as bs
    simp only [strLe, strLt] at ih hab hba
    by_cases h1 : b < a
    · simp [h1] at hab
    · by_cases h2 : a < b
      · simp [h2] at hba
      · have : a = b := by omega
        subst this
        simp only [h1, if_false] at hab hba
        rw [ih hab hba]

/-- Between distinct strings, "not after" is "before". -/
theorem strLt_of_strLe_of_ne {a b : GoString} (h : strLe a b) (hne : a ≠ b) :
    strLt a b = true := by
  cases hlt : strLt a b with
  | true => rfl
  | false => exact absurd (strLe_antisymm a b h hlt) hne

instance strLe_isTotal : IsTotal GoString strLe := ⟨strLe_total⟩

instance strLe_isTrans : IsTrans GoString strLe := ⟨strLe_trans⟩

instance strLe_isAntisymm : IsAntisymm GoString strLe := ⟨strLe_antisymm⟩

theorem sortStrings_sorted (keys : List GoString) : (sortStrings keys).Sorted strLe :=
  List.sorted_insertionSort strLe keys

theorem sortStrings_perm (keys : List GoString) : (sortStrings keys).Perm keys :=
  List.perm_insertionSort strLe keys

/-- The increasing arrangement of a list of strings is unique, so every correct
sorting algorithm returns the list `sortStrings` computes. -/
theorem sortStrings_unique (keys sorted : List GoString) (hp : sorted.Perm keys)
    (hs : sorted.Sorted strLe) : sorted = sortStrings keys :=
  List.eq_of_perm_of_sorted (hp.trans (sortStrings_perm keys).symm) hs
    (sortStrings_sorted keys)

theorem sortStrings_strict (keys : List GoString) (hnd : keys.Nodup) :
    (sortStrings keys).Pairwise (fun a b => strLt a b = true) := by
  have hs : (sortStrings keys).Pairwise strLe := sortStrings_sorted keys
  have hn : (sortStrings keys).Pairwise (fun a b => a ≠ b) :=
    ((sortStrings_perm keys).nodup_iff).mpr hnd
  exact (hs.and hn).imp (fun h => strLt_of_strLe_of_ne h.1 h.2)

theorem sortStrings_congr {k1 k2 : List GoString} (hp : k1.Perm k2) :
    sortStrings k1 = sortStrings k2 :=
  sortStrings_unique k2 (sortStrings k1) ((sortStrings_perm k1).trans hp)
    (sortStrings_sorted k1)

/-! ## Names are kept by resolution -/

theorem map_set_of_eq {α β : Type} (f : α → β) (l : List α) (i : Nat) (e e' : α)
    (h : l[i]? = some e) (hf : f e' = f e) : (l.set i e').map f = l.map f := by
  apply List.ext_getElem?
  intro j
  simp only [List.getElem?_map, List.getElem?_set]
  by_cases hij : i = j
  · subst hij
    have hi : i < l.length := by
      rw [List.getElem?_eq_some] at h
      exact h.1
    simp [hi, h, hf]
  · simp [hij]

theorem resolveTask_names (sv : Services) (i : Nat) (p : ResolverState × List setting) :
    (resolveTask sv i p).2.map (fun e => e.name) = p.2.map (fun e => e.name) := by
  unfold resolveTask
  cases he : p.2[i]? with
  | none => rfl
  | some e =>
    simp only
    by_cases hs : e.secret = true
    · simp only [hs, Bool.not_true, Bool.false_eq_true, if_false]
      cases hm : kvRefSubmatch e.value with
      | none => rfl
      | some uri =>
        simp only
        rcases hres : resolveKeyVaultRef sv p.1 uri with ⟨st, r⟩
        cases r with
        | error msg => exact map_set_of_eq _ _ _ e _ he rfl
        | ok v => exact map_set_of_eq _ _ _ e _ he rfl
    · simp [hs]

theorem foldl_resolveTask_names (sv : Services) (sched : List Nat) :
    ∀ p : ResolverState × List setting,
      (sched.foldl (fun p i => resolveTask sv i p) p).2.map (fun e => e.name)
        = p.2.map (fun e => e.name) := by
  induction sched with
  | nil => intro p; rfl
  | cons i rest ih =>
    intro p
    rw [List.foldl_cons, ih, resolveTask_names]

theorem resolveSecretsIn_names (sv : Services) (sched : List Nat) (entries : List setting) :
    (resolveSecretsIn sv sched entries).2.map (fun e => e.name)
      = entries.map (fun e => e.name) :=
  foldl_resolveTask_names sv sched (ResolverState.init, entries)

theorem mainWritten_names (sv : Services) (sched : List Nat)
    (props : List (GoString × Option GoString)) :
    (mainWritten sv sched props).map (fun e => e.name) = sortStrings (props.map Prod.fst) := by
  have hmain : (mainEntries props).map (fun e => e.name) = sortStrings (props.map Prod.fst) := by
    unfold mainEntries
    rw [List.map_map]
    have : ((fun e : setting => e.name) ∘ entryOf props) = id := by
      funext name; simp [entryOf]
    rw [this, List.map_id]
  unfold mainWritten
  simp only
  split
  · rw [resolveSecretsIn_names, hmain]
  · exact hmain

theorem lineKeys_eq_names (entries : List setting) (raw : Bool)
    (h : ∀ e ∈ entries, 61 ∉ e.name) :
    (envLines entries raw).map lineKey = entries.map (fun e => e.name) := by
  rw [envLines_eq_map, List.map_map]
  apply List.map_congr_left
  intro e he
  exact lineKey_envLine raw e (h e he)

/-- The mapping of the scenarios, listed with `B` before `A`. -/
theorem scenario_props_content :
    envContent
        (mainWritten scenarioServices [1, 0]
          [(ascii "B",
              some (ascii "@Microsoft.KeyVault(SecretUri=https://kv1.example.net/secrets/s1)")),
            (ascii "A", some (ascii "1"))])
        false
      = ascii "A=1\nB=topsecret\n" := by
  decide

/-- C4: for a mapping with pairwise distinct keys, whatever the order its keys
are visited in and whatever the outcome and order of secret resolution, the
entries handed to `atomicWriteEnv` carry the keys of the mapping, each once, in
strictly ascending byte-wise order; the records of the file are then sorted by
key. -/
theorem main_entries_sorted (sv : Services) (sched : List Nat)
    (props : List (GoString × Option GoString)) (hnd : (props.map Prod.fst).Nodup) :
    ((mainWritten sv sched props).map (fun e => e.name)).Pairwise
        (fun a b => strLt a b = true)
      ∧ ((mainWritten sv sched props).map (fun e => e.name)).Perm (props.map Prod.fst)
      ∧ (∀ (props' : List (GoString × Option GoString)) (sv' : Services)
          (sched' : List Nat), props'.Perm props →
          (mainWritten sv' sched' props').map (fun e => e.name)
            = (mainWritten sv sched props).map (fun e => e.name))
      ∧ (∀ raw : Bool, (∀ k ∈ props.map Prod.fst, 61 ∉ k) →
          ((envLines (mainWritten sv sched props) raw).map lineKey).Pairwise
            (fun a b => strLt a b = true)) := by
  have hnames := mainWritten_names sv sched props
  refine ⟨?_, ?_, ?_, ?_⟩
  · rw [hnames]
    exact sortStrings_strict _ hnd
  · rw [hnames]
    exact sortStrings_perm _
  · intro props' sv' sched' hp
    rw [hnames, mainWritten_names]
    exact sortStrings_congr (hp.map Prod.fst)
  · intro raw hk
    rw [lineKeys_eq_names, hnames]
    · exact sortStrings_strict _ hnd
    · intro e he
      have hmem : e.name ∈ (mainWritten sv sched props).map (fun e => e.name) :=
        List.mem_map_of_mem _ he
      rw [hnames] at hmem
      exact hk _ ((sortStrings_perm _).mem_iff.mp hmem)

/-- Witness for C4: a mapping visited with `B` before `A`, `B` being a Key Vault
reference. -/
theorem main_entries_sorted_witness :
    ((mainWritten scenarioServices [1, 0]
        [(ascii "B",
            some (ascii "@Microsoft.KeyVault(SecretUri=https://kv1.example.net/secrets/s1)")),
          (ascii "A", some (ascii "1"))]).map (fun e => e.name)).Pairwise
      (fun a b => strLt a b = true) :=
  (main_entries_sorted scenarioServices [1, 0]
    [(ascii "B",
        some (ascii "@Microsoft.KeyVault(SecretUri=https://kv1.example.net/secrets/s1)")),
      (ascii "A", some (ascii "1"))] (by decide)).1

/-- C5 as stated fails: given the entry `B=2` before the entry `A=1`,
`atomicWriteEnv` writes the line of `B` first, so the keys of the written lines
are not in ascending order. -/
theorem atomicWriteEnv_sorts_counterexample :
    envLines
        [⟨ascii "B", ascii "2", false, []⟩, ⟨ascii "A", ascii "1", false, []⟩] false
      = [ascii "B=2", ascii "A=1"]
      ∧ ¬ ((envLines
            [⟨ascii "B", ascii "2", false, []⟩, ⟨ascii "A", ascii "1", false, []⟩]
            false).map lineKey).Pairwise strLe
      ∧ (atomicWriteEnv (osAllOk (ascii ".env.tmp.1")) fsEmpty (ascii ".env")
          [⟨ascii "B", ascii "2", false, []⟩, ⟨ascii "A", ascii "1", false, []⟩]
          false).1 (ascii ".env")
          = some ⟨ascii "B=2\nA=1\n", 0o600⟩ := by
  decide

/-- C5 (amended): `atomicWriteEnv` does not reorder: it writes one line per
entry in the order of the list it is given, so the keys of the written lines are
the names in that order, and they are ascending when the given list is. -/
theorem atomicWriteEnv_keeps_order (entries : List setting) (raw : Bool) :
    envLines entries raw = entries.map (envLine raw)
      ∧ ((∀ e ∈ entries, 61 ∉ e.name) →
          (envLines entries raw).map lineKey = entries.map (fun e => e.name))
      ∧ ((∀ e ∈ entries, 61 ∉ e.name) →
          entries.Pairwise (fun a b => strLe a.name b.name) →
          ((envLines entries raw).map lineKey).Pairwise strLe) := by
  refine ⟨envLines_eq_map entries raw, lineKeys_eq_names entries raw, ?_⟩
  intro h hs
  rw [lineKeys_eq_names entries raw h]
  exact List.pairwise_map.mpr hs

/-! ## Path decomposition -/

theorem split_ne_nil (s : GoString) (sep : Nat) : split s sep ≠ [] := by
  induction s with
  | nil => simp [split]
  | cons b rest ih =>
    unfold split
    by_cases h : b = sep
    · simp [h]
    · simp only [h, if_false]
      cases hs : split rest sep with
      | nil => simp
      | cons p ps => simp

theorem split_of_not_mem (s : GoString) (sep : Nat) (h : sep ∉ s) : split s sep = [s] := by
  induction s with
  | nil => rfl
  | cons b rest ih =>
    have hb : b ≠ sep := fun hb => h (by simp [hb])
    have hr : sep ∉ rest := fun hr => h (by simp [hr])
    simp [split, hb, ih hr]

theorem split_append (a b : GoString) (sep : Nat) (h : sep ∉ a) :
    split (a ++ sep :: b) sep = a :: split b sep := by
  induction a with
  | nil => simp [split]
  | cons c rest ih =>
    have hc : c ≠ sep := fun hc => h (by simp [hc])
    have hr : sep ∉ rest := fun hr => h (by simp [hr])
    simp [split, hc, ih hr]

/-- A string either has no separator, or is a separator-free piece, the
separator and a remainder; `split` follows this decomposition. -/
theorem split_cases (s : GoString) (sep : Nat) :
    (sep ∉ s ∧ split s sep = [s])
      ∨ ∃ a b, s = a ++ sep :: b ∧ sep ∉ a ∧ split s sep = a :: split b sep := by
  induction s with
  | nil => left; exact ⟨by simp, rfl⟩
  | cons c rest ih =>
    by_cases hc : c = sep
    · right
      exact ⟨[], rest, by simp [hc], by simp, by simp [split, hc]⟩
    · rcases ih with ⟨hn, _⟩ | ⟨a, b, hs, ha, _⟩
      · left
        have : sep ∉ c :: rest := by
          simp only [List.mem_cons, not_or]
          exact ⟨fun h => hc h.symm, hn⟩
        exact ⟨this, split_of_not_mem _ _ this⟩
      · right
        have hca : sep ∉ c :: a := by
          simp only [List.mem_cons, not_or]
          exact ⟨fun h => hc h.symm, ha⟩
        refine ⟨c :: a, b, by simp [hs], hca, ?_⟩
        rw [hs, ← List.cons_append, split_append _ _ _ hca]

/-- What `secretPathParts` accepts, on the path `q` left by `TrimPrefix`:
`secrets/<name>`, or `secrets/<name>/<version>` optionally followed by further
segments, which are ignored. -/
theorem secretPathParts_ok_iff (p name version : GoString) :
    secretPathParts p = .ok (name, version) ↔
      47 ∉ name ∧ 47 ∉ version ∧
        ((trimPrefix p [47] = ascii "secrets/" ++ name ∧ version = [])
          ∨ trimPrefix p [47] = ascii "secrets/" ++ name ++ [47] ++ version
          ∨ ∃ more, trimPrefix p [47]
              = ascii "secrets/" ++ name ++ [47] ++ version ++ [47] ++ more) := by
  have hsec : (47 : Nat) ∉ ascii "secrets" := by decide
  have hpre : ∀ t : GoString, ascii "secrets/" ++ t = ascii "secrets" ++ 47 :: t := by
    intro t; rfl
  unfold secretPathParts
  generalize trimPrefix p [47] = q
  constructor
  · intro h
    simp only at h
    split at h
    · cases h
    · rename_i hcond
      simp only [Bool.or_eq_true, decide_eq_true_eq, not_or, not_lt, ne_eq,
        Decidable.not_not] at hcond
      obtain ⟨hlen, h0⟩ := hcond
      simp only [Except.ok.injEq, Prod.mk.injEq] at h
      obtain ⟨hname, hver⟩ := h
      rcases split_cases q 47 with ⟨_, hq⟩ | ⟨a, b, hqa, ha, hq⟩
      · rw [hq] at hlen; simp at hlen
      · rw [hq] at h0 hname hver hlen
        simp only [List.getElem?_cons_zero, Option.some.injEq] at h0
        subst h0
        rcases split_cases b 47 with ⟨hb, hsb⟩ | ⟨n, c, hbn, hn, hsb⟩
        · rw [hsb] at hname hver
          simp at hname hver
          subst hname hver
          exact ⟨hb, by simp, Or.inl ⟨by rw [hqa, hpre], rfl⟩⟩
        · rw [hsb] at hname hver
          simp only [List.getElem?_cons_succ, List.getElem?_cons_zero, Option.getD_some]
            at hname
          subst hname
          rcases split_cases c 47 with ⟨hc, hsc⟩ | ⟨v, d, hcv, hv, hsc⟩
          · rw [hsc] at hver
            simp at hver
            subst hver
            refine ⟨hn, hc, Or.inr (Or.inl ?_)⟩
            rw [hqa, hbn, hpre]; simp
          · rw [hsc] at hver
            have hl : 3 ≤ (ascii "secrets" :: n :: v :: split d 47).length := by simp
            simp only [hl, ge_iff_le, if_true] at hver
            simp at hver
            subst hver
            refine ⟨hn, hv, Or.inr (Or.inr ⟨d, ?_⟩)⟩
            rw [hqa, hbn, hcv, hpre]; simp
  · rintro ⟨hn, hv, h⟩
    rcases h with ⟨hq, hver⟩ | hq | ⟨more, hq⟩
    · subst hver
      rw [hq, hpre, split_append _ _ _ hsec, split_of_not_mem _ _ hn]
      simp
    · rw [hq, List.append_assoc, List.append_assoc, hpre, split_append _ _ _ hsec,
        List.singleton_append, split_append _ _ _ hn, split_of_not_mem _ _ hv]
      simp
    · have hq' : q = ascii "secrets" ++ 47 :: (name ++ 47 :: (version ++ 47 :: more)) := by
        rw [hq, ← hpre]; simp
      rw [hq', split_append _ _ _ hsec, split_append _ _ _ hn, split_append _ _ _ hv]
      have := split_ne_nil more 47
      cases hm : split more 47 with
      | nil => exact absurd hm this
      | cons x xs => simp

theorem secretPathParts_total (p : GoString) :
    (∃ name version, secretPathParts p = .ok (name, version))
      ∨ secretPathParts p = .error (ascii "unexpected secret URI path: " ++ p) := by
  unfold secretPathParts
  simp only
  split
  · right; rfl
  · left; exact ⟨_, _, rfl⟩

theorem trimPrefix_slash (t : GoString) : trimPrefix (47 :: t) [47] = t := by
  simp [trimPrefix, hasPrefix, List.isPrefixOf]

/-- C7 as stated fails: the path `/secrets/a/b/c` is accepted, with name `a` and
version `b`, although it is neither `/secrets/<name>` nor
`/secrets/<name>/<version>`. -/
theorem secretPathParts_shape_counterexample :
    secretPathParts (ascii "/secrets/a/b/c") = .ok (ascii "a", ascii "b")
      ∧ ¬ ∃ name version, IsSecretPath (ascii "/secrets/a/b/c") name version := by
  refine ⟨by rfl, ?_⟩
  rintro ⟨name, version, hn, hv, h⟩
  have hp : ascii "/secrets/a/b/c" = ascii "/secrets/" ++ ascii "a/b/c" := by decide
  rw [hp] at h
  rcases h with ⟨h, _⟩ | h
  · have := List.append_cancel_left h
    subst this
    exact hn (by decide)
  · rw [List.append_assoc, List.append_assoc] at h
    have h2 := List.append_cancel_left h
    have h3 : split (ascii "a/b/c") 47 = [name, version] := by
      rw [h2, List.singleton_append, split_append _ _ _ hn, split_of_not_mem _ _ hv]
    have h4 : split (ascii "a/b/c") 47 = [ascii "a", ascii "b", ascii "c"] := by decide
    rw [h4] at h3
    simp at h3

/-- C7 (amended): the decomposition succeeds exactly when the path, after one
leading `/` is removed if present, is `secrets/<name>` or
`secrets/<name>/<version>` possibly followed by `/` and further text that is
ignored; the name is the second segment and the version the third, empty when
there is none; every other path fails with the `unexpected secret URI path`
error; both shapes of the specification are accepted with their name and
version. -/
theorem secretPathParts_spec :
    (∀ p name version : GoString,
        secretPathParts p = .ok (name, version) ↔
          47 ∉ name ∧ 47 ∉ version ∧
            ((trimPrefix p [47] = ascii "secrets/" ++ name ∧ version = [])
              ∨ trimPrefix p [47] = ascii "secrets/" ++ name ++ [47] ++ version
              ∨ ∃ more, trimPrefix p [47]
                  = ascii "secrets/" ++ name ++ [47] ++ version ++ [47] ++ more))
      ∧ (∀ p : GoString,
          (∃ name version, secretPathParts p = .ok (name, version))
            ∨ secretPathParts p = .error (ascii "unexpected secret URI path: " ++ p))
      ∧ (∀ p name version : GoString,
          IsSecretPath p name version → secretPathParts p = .ok (name, version)) := by
  refine ⟨secretPathParts_ok_iff, secretPathParts_total, ?_⟩
  rintro p name version ⟨hn, hv, h⟩
  have hsl : ∀ t : GoString, ascii "/secrets/" ++ t = 47 :: (ascii "secrets/" ++ t) := by
    intro t; rfl
  rw [secretPathParts_ok_iff]
  refine ⟨hn, hv, ?_⟩
  rcases h with ⟨hp, hver⟩ | hp
  · left
    rw [hp, hsl, trimPrefix_slash]
    exact ⟨rfl, hver⟩
  · right; left
    rw [hp, List.append_assoc, List.append_assoc, hsl, trimPrefix_slash]
    simp

/-! ## The client map -/

/-- The client map and the construction record after `resolveKeyVaultRef` are
those left by its locked section. -/
theorem resolveKeyVaultRef_state (sv : Services) (s : ResolverState) (uri : GoString) :
    (∃ err, sv.urlParse uri = .error err ∧ (resolveKeyVaultRef sv s uri).1 = s)
      ∨ ∃ u, sv.urlParse uri = .ok u
          ∧ (resolveKeyVaultRef sv s uri).1.clients
              = (lockedClient sv s (vaultURLOf u)).1.clients
          ∧ (resolveKeyVaultRef sv s uri).1.constructed
              = (lockedClient sv s (vaultURLOf u)).1.constructed := by
  unfold resolveKeyVaultRef
  cases hu : sv.urlParse uri with
  | error err => left; exact ⟨err, rfl, rfl⟩
  | ok u =>
    right
    refine ⟨u, rfl, ?_⟩
    simp only
    rcases hl : lockedClient sv s (vaultURLOf u) with ⟨st1, r⟩
    cases r with
    | error msg => exact ⟨rfl, rfl⟩
    | ok client =>
      simp only
      cases hp : secretPathParts u.path with
      | error msg => exact ⟨rfl, rfl⟩
      | ok nv =>
        obtain ⟨secretName, version⟩ := nv
        simp only
        cases hg : sv.getSecret st1.fetched.length client secretName version with
        | error err => exact ⟨rfl, rfl⟩
        | ok v =>
          cases v with
          | none => exact ⟨rfl, rfl⟩
          | some value => exact ⟨rfl, rfl⟩

theorem lockedClient_hit (sv : Services) (s : ResolverState) (k : GoString) (c : Client)
    (h : s.clients k = some c) : lockedClient sv s k = (s, .ok c) := by
  simp [lockedClient, h]

theorem lockedClient_miss (sv : Services) (s : ResolverState) (k : GoString)
    (hNew : ∀ n url, ∃ c, sv.newClient n url = .ok c) (h : s.clients k = none) :
    ∃ c, (lockedClient sv s k).1.clients = mapSet s.clients k c
      ∧ (lockedClient sv s k).1.constructed = s.constructed ++ [(k, c)] := by
  obtain ⟨c, hc⟩ := hNew s.newClientCalls k
  exact ⟨c, by simp [lockedClient, h, hc], by simp [lockedClient, h, hc]⟩

theorem clientsInv_init : ClientsInv ResolverState.init := by
  refine ⟨?_, ?_, ?_⟩ <;> simp [ResolverState.init]

theorem resolveKeyVaultRef_inv (sv : Services)
    (hNew : ∀ n url, ∃ c, sv.newClient n url = .ok c) (s : ResolverState) (uri : GoString)
    (hinv : ClientsInv s) :
    ClientsInv (resolveKeyVaultRef sv s uri).1
      ∧ ∀ a, a ∈ (resolveKeyVaultRef sv s uri).1.constructed.map Prod.fst ↔
          (a ∈ s.constructed.map Prod.fst ∨ a ∈ authorities sv [uri]) := by
  obtain ⟨h1, h2, h3⟩ := hinv
  rcases resolveKeyVaultRef_state sv s uri with ⟨err, hu, hs⟩ | ⟨u, hu, hcl, hco⟩
  · rw [hs]
    refine ⟨⟨h1, h2, h3⟩, ?_⟩
    intro a
    simp [authorities, hu]
  · have hauth : ∀ a, a ∈ authorities sv [uri] ↔ a = vaultURLOf u := by
      intro a
      simp [authorities, hu, eq_comm]
    cases hk : s.clients (vaultURLOf u) with
    | some c =>
      rw [lockedClient_hit sv s _ c hk] at hcl hco
      refine ⟨⟨?_, ?_, ?_⟩, ?_⟩
      · intro k; rw [hcl, hco]; exact h1 k
      · rw [hco]; exact h2
      · intro k c'; rw [hcl, hco]; exact h3 k c'
      · intro a
        rw [hco, hauth]
        constructor
        · exact Or.inl
        · rintro (h | h)
          · exact h
          · subst h
            exact (h1 _).mp ⟨c, hk⟩
    | none =>
      obtain ⟨c, hc1, hc2⟩ := lockedClient_miss sv s (vaultURLOf u) hNew hk
      rw [hc1] at hcl
      rw [hc2] at hco
      have hnot : vaultURLOf u ∉ s.constructed.map Prod.fst := by
        intro hmem
        obtain ⟨c', hc'⟩ := (h1 _).mpr hmem
        rw [hk] at hc'
        cases hc'
      refine ⟨⟨?_, ?_, ?_⟩, ?_⟩
      · intro k
        rw [hcl, hco]
        by_cases hkk : k = vaultURLOf u
        · subst hkk
          simp [mapSet]
        · have := h1 k
          simp only [mapSet, hkk, if_false, List.map_append, List.map_cons, List.map_nil,
            List.mem_append, List.mem_singleton, or_false]
          exact this
      · rw [hco]
        simp only [List.map_append, List.map_cons, List.map_nil]
        rw [List.nodup_append]
        refine ⟨h2, by simp, ?_⟩
        intro a ha hb
        simp only [List.mem_singleton] at hb
        subst hb
        exact hnot ha
      · intro k c'
        rw [hcl, hco]
        by_cases hkk : k = vaultURLOf u
        · subst hkk
          simp only [mapSet, if_true, Option.some.injEq, List.mem_append, List.mem_singleton]
          intro h; right; rw [h]
        · simp only [mapSet, hkk, if_false, List.mem_append, List.mem_singleton,
            Prod.mk.injEq, false_and, or_false]
          exact h3 k c'
      · intro a
        rw [hco, hauth]
        simp

theorem resolveAll_inv (sv : Services)
    (hNew : ∀ n url, ∃ c, sv.newClient n url = .ok c) (uris : List GoString) :
    ∀ s, ClientsInv s →
      ClientsInv (resolveAll sv s uris)
        ∧ ∀ a, a ∈ (resolveAll sv s uris).constructed.map Prod.fst ↔
            (a ∈ s.constructed.map Prod.fst ∨ a ∈ authorities sv uris) := by
  induction uris with
  | nil =>
    intro s hs
    exact ⟨hs, by simp [resolveAll, authorities]⟩
  | cons uri rest ih =>
    intro s hs
    obtain ⟨hinv1, hmem1⟩ := resolveKeyVaultRef_inv sv hNew s uri hs
    obtain ⟨hinv2, hmem2⟩ := ih _ hinv1
    have hstep : resolveAll sv s (uri :: rest)
        = resolveAll sv (resolveKeyVaultRef sv s uri).1 rest := rfl
    rw [hstep]
    refine ⟨hinv2, ?_⟩
    intro a
    rw [hmem2, hmem1]
    have : a ∈ authorities sv (uri :: rest)
        ↔ a ∈ authorities sv [uri] ∨ a ∈ authorities sv rest := by
      have happ : authorities sv (uri :: rest)
          = authorities sv [uri] ++ authorities sv rest := by
        unfold authorities
        rw [← List.filterMap_append]
        rfl
      rw [happ, List.mem_append]
    rw [this, or_assoc]

theorem resolveKeyVaultRef_keeps (sv : Services) (s : ResolverState) (uri k : GoString)
    (c : Client) (h : s.clients k = some c) :
    (resolveKeyVaultRef sv s uri).1.clients k = some c := by
  rcases resolveKeyVaultRef_state sv s uri with ⟨err, hu, hs⟩ | ⟨u, hu, hcl, hco⟩
  · rw [hs]; exact h
  · rw [hcl]
    unfold lockedClient
    cases hk : s.clients (vaultURLOf u) with
    | some c' => exact h
    | none =>
      simp only
      cases hn : sv.newClient s.newClientCalls (vaultURLOf u) with
      | error err => exact h
      | ok c' =>
        simp only [mapSet]
        have : k ≠ vaultURLOf u := by
          rintro rfl
          rw [hk] at h
          cases h
        simp [this, h]

/-- A `GetSecret` call made by `resolveKeyVaultRef` goes through the handle its
locked section returned. -/
theorem resolveKeyVaultRef_fetched (sv : Services) (s : ResolverState) (uri : GoString)
    (x : Client × GoString × GoString) (hx : x ∈ (resolveKeyVaultRef sv s uri).1.fetched) :
    x ∈ s.fetched
      ∨ ∃ u c, sv.urlParse uri = .ok u ∧ (lockedClient sv s (vaultURLOf u)).2 = .ok c
          ∧ x.1 = c := by
  have hlf : ∀ k, (lockedClient sv s k).1.fetched = s.fetched := by
    intro k
    unfold lockedClient
    cases s.clients k with
    | some c => rfl
    | none =>
      simp only
      cases sv.newClient s.newClientCalls k <;> rfl
  unfold resolveKeyVaultRef at hx
  cases hu : sv.urlParse uri with
  | error err => rw [hu] at hx; exact Or.inl hx
  | ok u =>
    rw [hu] at hx
    simp only at hx
    have hf := hlf (vaultURLOf u)
    rcases hl : lockedClient sv s (vaultURLOf u) with ⟨st1, r⟩
    rw [hl] at hx hf
    simp only at hf
    cases r with
    | error msg => left; rw [← hf]; exact hx
    | ok client =>
      simp only at hx
      cases hp : secretPathParts u.path with
      | error msg => rw [hp] at hx; left; rw [← hf]; exact hx
      | ok nv =>
        obtain ⟨secretName, version⟩ := nv
        rw [hp] at hx
        simp only at hx
        have hx' : x ∈ st1.fetched ++ [(client, secretName, version)] := by
          cases hg : sv.getSecret st1.fetched.length client secretName version with
          | error err => rw [hg] at hx; exact hx
          | ok v =>
            rw [hg] at hx
            cases v with
            | none => exact hx
            | some value => exact hx
        rw [List.mem_append, List.mem_singleton] at hx'
        rcases hx' with h | h
        · left; rw [← hf]; exact h
        · right
          exact ⟨u, client, rfl, by rw [hl], by rw [h]⟩

/-- In a record without repeated keys, the number of handles constructed for a
key is one or zero. -/
theorem constructed_count (a : GoString) :
    ∀ l : List (GoString × Client), (l.map Prod.fst).Nodup →
      (l.filter (fun kc => decide (kc.1 = a))).length
        = if a ∈ l.map Prod.fst then 1 else 0
  | [], _ => by simp
  | (k, c) :: rest, hnd => by
    rw [List.map_cons, List.nodup_cons] at hnd
    have ih := constructed_count a rest hnd.2
    by_cases hk : k = a
    · subst hk
      have hz : (if k ∈ rest.map Prod.fst then 1 else 0) = 0 := if_neg hnd.1
      rw [hz] at ih
      simp [List.filter_cons, ih]
    · have hk' : ¬ a = k := fun h => hk h.symm
      simp only [List.filter_cons, hk, decide_False, Bool.false_eq_true, if_false, ih,
        List.map_cons, List.mem_cons, hk', false_or]

/-- C8: when client construction succeeds, a sequence of `resolveKeyVaultRef`
calls from the empty client map constructs exactly one handle for each authority
referenced and none for any other; a call that finds its authority in the map
constructs nothing, changes no entry and fetches through the stored handle; a
call that does not find it constructs one handle and stores it; a stored entry
is never replaced or removed.  Two references to `https://kv1.example.net`
construct one handle and perform two fetches. -/
theorem client_constructed_once (sv : Services)
    (hNew : ∀ n url, ∃ c, sv.newClient n url = .ok c) (uris : List GoString) :
    (∀ a, ((resolveAll sv ResolverState.init uris).constructed.filter
          (fun kc => decide (kc.1 = a))).length
        = if a ∈ authorities sv uris then 1 else 0)
      ∧ (∀ a ∈ authorities sv uris, ∃ c,
          (resolveAll sv ResolverState.init uris).clients a = some c
            ∧ (a, c) ∈ (resolveAll sv ResolverState.init uris).constructed)
      ∧ (∀ (s : ResolverState) (uri : GoString) (u : URL) (c : Client),
          sv.urlParse uri = .ok u → s.clients (vaultURLOf u) = some c →
          (resolveKeyVaultRef sv s uri).1.constructed = s.constructed
            ∧ (resolveKeyVaultRef sv s uri).1.clients = s.clients
            ∧ ∀ x ∈ (resolveKeyVaultRef sv s uri).1.fetched, x ∈ s.fetched ∨ x.1 = c)
      ∧ (∀ (s : ResolverState) (uri : GoString) (u : URL),
          sv.urlParse uri = .ok u → s.clients (vaultURLOf u) = none →
          ∃ c, (resolveKeyVaultRef sv s uri).1.constructed
                = s.constructed ++ [(vaultURLOf u, c)]
            ∧ (resolveKeyVaultRef sv s uri).1.clients = mapSet s.clients (vaultURLOf u) c)
      ∧ (∀ (s : ResolverState) (uri k : GoString) (c : Client),
          s.clients k = some c → (resolveKeyVaultRef sv s uri).1.clients k = some c)
      ∧ (resolveAll scenarioServices ResolverState.init
            [ascii "https://kv1.example.net/secrets/a",
              ascii "https://kv1.example.net/secrets/b"]).constructed
          = [(ascii "https://kv1.example.net", 100)]
      ∧ (resolveAll scenarioServices ResolverState.init
            [ascii "https://kv1.example.net/secrets/a",
              ascii "https://kv1.example.net/secrets/b"]).fetched
          = [(100, ascii "a", []), (100, ascii "b", [])] := by
  obtain ⟨hinv, hmem⟩ := resolveAll_inv sv hNew uris ResolverState.init clientsInv_init
  refine ⟨?_, ?_, ?_, ?_, ?_, by decide, by decide⟩
  · intro a
    rw [constructed_count a _ hinv.2.1]
    have : a ∈ (resolveAll sv ResolverState.init uris).constructed.map Prod.fst
        ↔ a ∈ authorities sv uris := by
      rw [hmem]; simp [ResolverState.init]
    simp only [this]
  · intro a ha
    have hin : a ∈ (resolveAll sv ResolverState.init uris).constructed.map Prod.fst :=
      (hmem a).mpr (Or.inr ha)
    obtain ⟨c, hc⟩ := (hinv.1 a).mpr hin
    exact ⟨c, hc, hinv.2.2 a c hc⟩
  · intro s uri u c hu hk
    rcases resolveKeyVaultRef_state sv s uri with ⟨err, hu', _⟩ | ⟨u', hu', hcl, hco⟩
    · rw [hu] at hu'; cases hu'
    · rw [hu] at hu'
      cases hu'
      rw [lockedClient_hit sv s _ c hk] at hcl hco
      refine ⟨hco, hcl, ?_⟩
      intro x hx
      rcases resolveKeyVaultRef_fetched sv s uri x hx with h | ⟨u', c', hu', hl, hxc⟩
      · exact Or.inl h
      · rw [hu] at hu'
        cases hu'
        rw [lockedClient_hit sv s _ c hk] at hl
        cases hl
        exact Or.inr hxc
  · intro s uri u hu hk
    rcases resolveKeyVaultRef_state sv s uri with ⟨err, hu', _⟩ | ⟨u', hu', hcl, hco⟩
    · rw [hu] at hu'; cases hu'
    · rw [hu] at hu'
      cases hu'
      obtain ⟨c, hc1, hc2⟩ := lockedClient_miss sv s (vaultURLOf u) hNew hk
      exact ⟨c, by rw [hco, hc2], by rw [hcl, hc1]⟩
  · intro s uri k c h
    exact resolveKeyVaultRef_keeps sv s uri k c h

/-- Witness for C8: the two references of the scenario, with collaborators whose
client construction always succeeds. -/
theorem client_constructed_once_witness :
    ((resolveAll scenarioServices ResolverState.init
        [ascii "https://kv1.example.net/secrets/a",
          ascii "https://kv1.example.net/secrets/b"]).constructed.filter
        (fun kc => decide (kc.1 = ascii "https://kv1.example.net"))).length
      = if ascii "https://kv1.example.net"
            ∈ authorities scenarioServices
                [ascii "https://kv1.example.net/secrets/a",
                  ascii "https://kv1.example.net/secrets/b"] then 1 else 0 :=
  (client_constructed_once scenarioServices (fun n _ => ⟨100 + n, rfl⟩)
    [ascii "https://kv1.example.net/secrets/a",
      ascii "https://kv1.example.net/secrets/b"]).1 (ascii "https://kv1.example.net")

/-! ## Resolution of the entries -/

theorem ascii_append_ne_nil (lit : String) (x : GoString) (h : ascii lit ≠ []) :
    ascii lit ++ x ≠ [] :=
  List.append_ne_nil_of_left_ne_nil h x

/-- Every error `resolveKeyVaultRef` returns has a non-empty message. -/
theorem resolveKeyVaultRef_error_ne_nil (sv : Services) (s : ResolverState)
    (uri msg : GoString) (h : (resolveKeyVaultRef sv s uri).2 = .error msg) : msg ≠ [] := by
  unfold resolveKeyVaultRef at h
  cases hu : sv.urlParse uri with
  | error err =>
    rw [hu] at h
    simp only [Except.error.injEq] at h
    rw [← h]
    exact ascii_append_ne_nil _ _ (by decide)
  | ok u =>
    rw [hu] at h
    simp only at h
    have hlock : ∀ m, (lockedClient sv s (vaultURLOf u)).2 = .error m → m ≠ [] := by
      intro m hm
      unfold lockedClient at hm
      cases hk : s.clients (vaultURLOf u) with
      | some c => rw [hk] at hm; cases hm
      | none =>
        rw [hk] at hm
        simp only at hm
        cases hn : sv.newClient s.newClientCalls (vaultURLOf u) with
        | error err =>
          rw [hn] at hm
          simp only [Except.error.injEq] at hm
          rw [← hm]
          exact ascii_append_ne_nil _ _ (by decide)
        | ok c => rw [hn] at hm; cases hm
    rcases hl : lockedClient sv s (vaultURLOf u) with ⟨st1, r⟩
    rw [hl] at h hlock
    cases r with
    | error m =>
      simp only [Except.error.injEq] at h
      rw [← h]
      exact hlock m rfl
    | ok client =>
      simp only at h
      cases hp : secretPathParts u.path with
      | error m =>
        rw [hp] at h
        simp only [Except.error.injEq] at h
        rw [← h]
        rcases secretPathParts_total u.path with ⟨n, v, hok⟩ | herr
        · rw [hok] at hp; cases hp
        · rw [herr] at hp
          cases hp
          exact ascii_append_ne_nil _ _ (by decide)
      | ok nv =>
        obtain ⟨secretName, version⟩ := nv
        rw [hp] at h
        simp only at h
        cases hg : sv.getSecret st1.fetched.length client secretName version with
        | error err =>
          rw [hg] at h
          simp only [Except.error.injEq] at h
          rw [← h, List.append_assoc, List.append_assoc]
          exact ascii_append_ne_nil _ _ (by decide)
        | ok v =>
          rw [hg] at h
          cases v with
          | none =>
            simp only [Except.error.injEq] at h
            rw [← h, List.append_assoc]
            exact ascii_append_ne_nil _ _ (by decide)
          | some value => cases h

theorem resolveTask_length (sv : Services) (i : Nat) (p : ResolverState × List setting) :
    (resolveTask sv i p).2.length = p.2.length := by
  have h := congrArg List.length (resolveTask_names sv i p)
  simpa using h

theorem resolveTask_other (sv : Services) (i j : Nat) (p : ResolverState × List setting)
    (hij : i ≠ j) : (resolveTask sv i p).2[j]? = p.2[j]? := by
  unfold resolveTask
  cases he : p.2[i]? with
  | none => rfl
  | some e =>
    simp only
    by_cases hs : e.secret = true
    · simp only [hs, Bool.not_true, Bool.false_eq_true, if_false]
      cases hm : kvRefSubmatch e.value with
      | none => rfl
      | some uri =>
        simp only
        rcases hres : resolveKeyVaultRef sv p.1 uri with ⟨st, r⟩
        cases r with
        | error msg => simp [List.getElem?_set, hij]
        | ok v => simp [List.getElem?_set, hij]
    · simp [hs]

theorem resolveTask_own (sv : Services) (i : Nat) (p : ResolverState × List setting)
    (e : setting) (he : p.2[i]? = some e) :
    ∃ e', (resolveTask sv i p).2[i]? = some e' ∧ TaskOutcome sv p.1 e e' := by
  have hi : i < p.2.length := by
    rw [List.getElem?_eq_some] at he
    exact he.1
  unfold resolveTask
  rw [he]
  simp only
  by_cases hs : e.secret = true
  · have hns : ¬ ((!e.secret) = true) := by simp [hs]
    rw [if_neg hns]
    cases hm : kvRefSubmatch e.value with
    | none =>
      exact ⟨e, he, rfl, rfl, fun _ => rfl, fun _ => rfl,
        fun _ uri h => by rw [hm] at h; cases h⟩
    | some uri =>
      simp only
      rcases hres : resolveKeyVaultRef sv p.1 uri with ⟨st, r⟩
      cases r with
      | error msg =>
        refine ⟨{ e with errMsg := msg }, by simp [List.getElem?_set, hi], rfl, rfl, ?_, ?_, ?_⟩
        · intro h; rw [hs] at h; cases h
        · intro h; rw [hm] at h; cases h
        · intro _ uri' huri
          rw [hm] at huri
          cases huri
          exact Or.inr ⟨by rw [hres], rfl⟩
      | ok v =>
        refine ⟨{ e with value := v }, by simp [List.getElem?_set, hi], rfl, rfl, ?_, ?_, ?_⟩
        · intro h; rw [hs] at h; cases h
        · intro h; rw [hm] at h; cases h
        · intro _ uri' huri
          rw [hm] at huri
          cases huri
          exact Or.inl ⟨by rw [hres], rfl⟩
  · have hs' : e.secret = false := by simpa using hs
    have hns : (!e.secret) = true := by simp [hs']
    rw [if_pos hns]
    refine ⟨e, he, rfl, rfl, fun _ => rfl, fun _ => rfl, ?_⟩
    intro h; rw [hs'] at h; cases h

theorem foldl_resolveTask_length (sv : Services) (sched : List Nat) :
    ∀ p : ResolverState × List setting,
      (sched.foldl (fun p i => resolveTask sv i p) p).2.length = p.2.length := by
  intro p
  have h := congrArg List.length (foldl_resolveTask_names sv sched p)
  simpa using h

theorem foldl_resolveTask_untouched (sv : Services) (sched : List Nat) (i : Nat)
    (hi : i ∉ sched) :
    ∀ p : ResolverState × List setting,
      (sched.foldl (fun p i => resolveTask sv i p) p).2[i]? = p.2[i]? := by
  induction sched with
  | nil => intro p; rfl
  | cons j rest ih =>
    intro p
    have hj : j ≠ i := fun h => hi (by simp [h])
    have hr : i ∉ rest := fun h => hi (by simp [h])
    rw [List.foldl_cons, ih hr, resolveTask_other sv j i p hj]

/-- In a run where task `i` takes effect once, entry `i` ends as that task
leaves it, the task having run in the state left by the tasks before it;
whatever the other tasks do afterwards does not touch the entry. -/
theorem foldl_resolveTask_own (sv : Services) (sched : List Nat) (i : Nat)
    (hnd : sched.Nodup) (hi : i ∈ sched) :
    ∀ (p : ResolverState × List setting) (e : setting), p.2[i]? = some e →
      ∃ e', (sched.foldl (fun p i => resolveTask sv i p) p).2[i]? = some e'
        ∧ TaskOutcome sv
            ((sched.takeWhile (fun j => j ≠ i)).foldl (fun p i => resolveTask sv i p) p).1
            e e' := by
  induction sched with
  | nil => simp at hi
  | cons j rest ih =>
    intro p e he
    rw [List.nodup_cons] at hnd
    rw [List.foldl_cons]
    by_cases hji : j = i
    · subst hji
      rw [foldl_resolveTask_untouched sv rest j hnd.1]
      have htw : (j :: rest).takeWhile (fun k => k ≠ j) = [] := by
        simp [List.takeWhile]
      rw [htw]
      exact resolveTask_own sv j p e he
    · have hr : i ∈ rest := by
        rcases List.mem_cons.mp hi with h | h
        · exact absurd h.symm hji
        · exact h
      have htw : (j :: rest).takeWhile (fun k => k ≠ i)
          = j :: rest.takeWhile (fun k => k ≠ i) := by
        simp [List.takeWhile, hji]
      rw [htw, List.foldl_cons]
      apply ih hnd.2 hr
      rw [resolveTask_other sv j i p hji]
      exact he

/-- C2: for entries with empty `errMsg` whose secret flag is set only on values
matching the Key Vault pattern (the `isSecretReference` of the data model, as
`main` sets it), for every outcome of the collaborators and every order in
which the tasks take effect, `resolveSecrets` keeps the length and each entry's
position, name and flag; a non-secret entry keeps its value and has an empty
`errMsg`; a secret entry satisfies exactly one of (a) its value is the value
that its own `resolveKeyVaultRef` call returned, in the shared state the run had
reached when its task ran, and `errMsg` is empty, or (b) `errMsg` is the
non-empty error that call returned and its value is still the reference.  The
entry is determined by the result of its own call alone: a failure of another
entry neither aborts it nor changes what is recorded for it. -/
theorem resolveSecrets_settles (sv : Services) (entries : List setting) (sched : List Nat)
    (hsched : sched.Perm (List.range entries.length))
    (hErr : ∀ e ∈ entries, e.errMsg = [])
    (hRef : ∀ e ∈ entries, e.secret = true → kvRefMatch e.value = true) :
    (resolveSecretsIn sv sched entries).2.length = entries.length
      ∧ ∀ (i : Nat) (e : setting), entries[i]? = some e →
          ∃ e', (resolveSecretsIn sv sched entries).2[i]? = some e'
            ∧ e'.name = e.name ∧ e'.secret = e.secret
            ∧ (e.secret = false → e'.value = e.value ∧ e'.errMsg = [])
            ∧ (e.secret = true →
                SecretSettled sv (sharedStateAt sv sched entries i) e e') := by
  refine ⟨foldl_resolveTask_length sv sched _, ?_⟩
  intro i e he
  have hi : i < entries.length := by
    rw [List.getElem?_eq_some] at he
    exact he.1
  have hmem : e ∈ entries := by
    rw [List.getElem?_eq_some] at he
    obtain ⟨h, rfl⟩ := he
    exact List.getElem_mem h
  have hnd : sched.Nodup := (hsched.nodup_iff).mpr (List.nodup_range _)
  have hin : i ∈ sched := (hsched.mem_iff).mpr (List.mem_range.mpr hi)
  obtain ⟨e', he', hname, hsecret, hplain, _, hsec⟩ :=
    foldl_resolveTask_own sv sched i hnd hin (ResolverState.init, entries) e he
  refine ⟨e', he', hname, hsecret, ?_, ?_⟩
  · intro hs
    rw [hplain hs]
    exact ⟨rfl, hErr e hmem⟩
  · intro hs
    have hmatch := hRef e hmem hs
    unfold kvRefMatch at hmatch
    obtain ⟨uri, huri⟩ := Option.isSome_iff_exists.mp hmatch
    have hexcl : ∀ (r : Except GoString GoString) (v m : GoString),
        ¬ (r = .ok v ∧ r = .error m) := by
      rintro r v m ⟨h1, h2⟩
      rw [h1] at h2
      cases h2
    refine ⟨uri, huri, ?_, fun h => hexcl _ _ _ ⟨h.1.1, h.2.1⟩⟩
    rcases hsec hs uri huri with h | h
    · exact Or.inl ⟨h.1, by rw [h.2]; exact hErr e hmem⟩
    · exact Or.inr ⟨h.1, resolveKeyVaultRef_error_ne_nil sv _ uri _ h.1, h.2⟩

/-- Witness for C2: a plain entry, a reference that resolves and a reference
whose fetch fails, the tasks taking effect in the order 2, 0, 1. -/
theorem resolveSecrets_settles_witness :
    (resolveSecretsIn scenarioServices [2, 0, 1]
        [⟨ascii "A", ascii "1", false, []⟩,
          ⟨ascii "B", ascii "@Microsoft.KeyVault(SecretUri=https://kv1.example.net/secrets/s1)",
            true, []⟩,
          ⟨ascii "C", ascii "@Microsoft.KeyVault(SecretUri=https://kv1.example.net/secrets/gone)",
            true, []⟩]).2.length = 3
      ∧ (resolveSecretsIn scenarioServices [2, 0, 1]
          [⟨ascii "A", ascii "1", false, []⟩,
            ⟨ascii "B", ascii "@Microsoft.KeyVault(SecretUri=https://kv1.example.net/secrets/s1)",
              true, []⟩,
            ⟨ascii "C",
              ascii "@Microsoft.KeyVault(SecretUri=https://kv1.example.net/secrets/gone)",
              true, []⟩]).2
          = [⟨ascii "A", ascii "1", false, []⟩,
              ⟨ascii "B", ascii "topsecret", true, []⟩,
              ⟨ascii "C",
                ascii "@Microsoft.KeyVault(SecretUri=https://kv1.example.net/secrets/gone)",
                true, ascii "getting secret gone: SecretNotFound"⟩] :=
  ⟨(resolveSecrets_settles scenarioServices
      [⟨ascii "A", ascii "1", false, []⟩,
        ⟨ascii "B", ascii "@Microsoft.KeyVault(SecretUri=https://kv1.example.net/secrets/s1)",
          true, []⟩,
        ⟨ascii "C", ascii "@Microsoft.KeyVault(SecretUri=https://kv1.example.net/secrets/gone)",
          true, []⟩]
      [2, 0, 1] (by decide) (by decide) (by decide)).1,
    by decide⟩

end AzLoadenv
